import Mathlib

/-!
Verification development for the tm_cardmaker repository.

The definitions in this file are shallow embeddings of the JavaScript source:

* the steganographic bit codec `array2string` / `string2array`
  (src/unnamed/part_002, lines 1924-1964);
* the rectangle packer `fitImages` (src/imageFit.js);
* the undo manager (`captureState`, `undo`, `redo`, `clearUndoHistory`,
  `updateMaxUndoSteps`, src/unnamed/part_002, lines 784-932);
* the project-decode path of `userImageLoaded` (lines 1796-1902) and the
  base-layer merge loop plus the relevant effect of `loadFrom`;
* the greedy word-wrap used by `drawProject` (text case) and replayed by
  `clickIsWithinText`;
* the layer-record mutations performed by `drawProject`.

JavaScript numbers are modelled as `Nat`/`Int`/`ℚ` as appropriate for each
routine (none of the verified routines depends on floating-point rounding),
JS strings handled by the codec as lists of character codes, and the RGBA
pixel buffer as a `List Nat` with JS plain-array semantics: reads out of
range behave as 0 (because `undefined > 127` is false in JS), writes past
the end extend the array (intermediate holes read back as 0).
-/

set_option maxRecDepth 100000

namespace TMCM

/-! ## Byte-buffer primitives -/

/-- Read `arr[pos]` from a JS array: out-of-range reads give `undefined`,
which compares as 0 for every comparison the codec performs. -/
def readA (arr : List Nat) (pos : Nat) : Nat := arr.getD pos 0

/-- Write `arr[pos] = v` into a JS array: in-range writes update in place,
out-of-range writes extend the array (holes behave as 0 when read back). -/
def writeA (arr : List Nat) (pos : Nat) (v : Nat) : List Nat :=
  if pos < arr.length then arr.set pos v
  else arr ++ List.replicate (pos - arr.length) 0 ++ [v]

theorem writeA_length (arr : List Nat) (pos : Nat) (v : Nat) :
    (writeA arr pos v).length = max arr.length (pos + 1) := by
  unfold writeA
  split <;> simp <;> omega

theorem readA_writeA_self (arr : List Nat) (pos : Nat) (v : Nat) :
    readA (writeA arr pos v) pos = v := by
  unfold readA writeA
  split
  · rename_i h
    simp [List.getD_eq_getElem?_getD, List.getElem?_set_eq h]
  · rename_i h
    rw [List.getD_eq_getElem?_getD, List.append_assoc,
      List.getElem?_append_right (le_of_not_lt h)]
    rw [List.getElem?_append_right (by simp)]
    simp

theorem readA_writeA_ne (arr : List Nat) (pos : Nat) (v : Nat) (q : Nat)
    (hq : q ≠ pos) : readA (writeA arr pos v) q = readA arr q := by
  unfold readA writeA
  split
  · simp [List.getD_eq_getElem?_getD, List.getElem?_set_ne (Ne.symm hq)]
  · rename_i h
    rcases Nat.lt_or_ge q arr.length with hlt | hge
    · rw [List.getD_eq_getElem?_getD, List.getD_eq_getElem?_getD]
      rw [List.append_assoc, List.getElem?_append_left hlt]
    · rw [List.getD_eq_getElem?_getD, List.getD_eq_getElem?_getD]
      rw [List.append_assoc, List.getElem?_append_right hge]
      rw [List.getElem?_eq_none_iff.mpr hge]
      rcases Nat.lt_or_ge (q - arr.length) (pos - arr.length) with h2 | h2
      · rw [List.getElem?_append_left (by simpa using h2)]
        simp [List.getElem?_replicate_of_lt h2]
      · have hgt : pos < q := by omega
        rw [List.getElem?_append_right (by simpa using h2)]
        rw [List.getElem?_eq_none_iff.mpr
          (by simp only [List.length_singleton, List.length_replicate]; omega)]

/-! ## The bit codec (src/unnamed/part_002, lines 1924-1964)

Both codec loops advance the write/read cursor past any byte position that
is congruent to 3 mod 4 (the alpha channel of an RGBA buffer) before
consuming a position: `if (pos % 4 == 3) pos++`. -/

/-- The alpha-skip step `if (pos % 4 == 3) pos++` shared by both codec
loops. -/
def skipA (pos : Nat) : Nat := if pos % 4 = 3 then pos + 1 else pos

theorem skipA_mod (pos : Nat) : skipA pos % 4 ≠ 3 := by
  unfold skipA
  split <;> omega

theorem skipA_idem (pos : Nat) : skipA (skipA pos) = skipA pos := by
  unfold skipA
  split <;> simp <;> omega

theorem skipA_ge (pos : Nat) : pos ≤ skipA pos := by
  unfold skipA; split <;> omega

/-- Inner 8-bit write loop of `string2array`:
`for j: if (pos%4==3) pos++; arr[pos] = (c & (1 << j)) ? 0xff : 0; pos++`.
`k` counts the bits still to process, `j` is the current bit index. -/
def encBits (c : Nat) (arr : List Nat) (pos j k : Nat) : List Nat × Nat :=
  match k with
  | 0 => (arr, pos)
  | k + 1 =>
    let p := skipA pos
    let arr2 := writeA arr p (if c &&& (1 <<< j) ≠ 0 then 255 else 0)
    encBits c arr2 (p + 1) (j + 1) k

/-- Inner 8-bit read loop of `array2string`:
`for j: if (pos%4==3) pos++; let v = arr[pos]; if (v > 127) n |= 1 << j; pos++`. -/
def decBits (arr : List Nat) (n : Nat) (pos j k : Nat) : Nat × Nat :=
  match k with
  | 0 => (n, pos)
  | k + 1 =>
    let p := skipA pos
    let v := readA arr p
    let n2 := if 127 < v then n ||| (1 <<< j) else n
    decBits arr n2 (p + 1) (j + 1) k

/-- Cursor evolution of one codec bit-loop pass (proof helper): both the
encoder and the decoder advance the cursor by the same skip-then-step rule,
independently of the data. -/
def advBits (pos : Nat) : Nat → Nat
  | 0 => pos
  | k + 1 => advBits (skipA pos + 1) k

/-- Value accumulated by the 8-bit read loop when it reads back the bits the
write loop stored (proof helper). -/
def orBits (n c j : Nat) : Nat → Nat
  | 0 => n
  | k + 1 => orBits (if c &&& (1 <<< j) ≠ 0 then n ||| (1 <<< j) else n) c (j + 1) k

/-- Per-character loop of `string2array` (lines 1948-1954): encode each
character code of the string in order. -/
def string2arrayBody (s : List Nat) (arr : List Nat) (pos : Nat) : List Nat × Nat :=
  match s with
  | [] => (arr, pos)
  | c :: rest =>
    let r := encBits c arr pos 0 8
    string2arrayBody rest r.1 r.2

/-- Full `string2array(str, arr, aPos, zeroTerminate)` (lines 1945-1964):
encode every character, skip a trailing alpha position, and if
`zeroTerminate` write one all-zero-bits character as terminator. The JS
function returns only the cursor; we also return the mutated buffer. -/
def string2array (s : List Nat) (arr : List Nat) (aPos : Nat) (zeroTerminate : Bool) :
    List Nat × Nat :=
  let r := string2arrayBody s arr aPos
  let pos2 := skipA r.2
  if zeroTerminate then encBits 0 r.1 pos2 0 8 else (r.1, pos2)

/-- Body of the `do … while (str.length != len)` loop of `array2string`
(lines 1929-1941), with an explicit iteration bound `fuel`. Each iteration
reads one 8-bit character; a character whose bits are all zero stops the
loop (`if (!n) break`), as does reaching `len` accumulated characters. In
the source the loop terminates because reading past the end of the buffer
yields all-zero bits; `array2string` below passes a fuel large enough to
cover that bound, so the fuel-0 branch is never the reason a call returns. -/
def array2stringAux (arr : List Nat) (len : Nat) (acc : List Nat) (pos : Nat) :
    Nat → List Nat × Nat
  | 0 => (acc, pos)
  | fuel + 1 =>
    let r := decBits arr 0 pos 0 8
    if r.1 = 0 then (acc, r.2)
    else
      let acc2 := acc ++ [r.1]
      if acc2.length = len then (acc2, r.2)
      else array2stringAux arr len acc2 r.2 fuel

/-- Full `array2string(arr, aPos, len)` (lines 1924-1943): decode characters
starting at `aPos`; `len = 0` means zero-terminated mode. Returns the
decoded character codes and the final cursor. -/
def array2string (arr : List Nat) (aPos len : Nat) : List Nat × Nat :=
  array2stringAux arr len [] aPos (len + arr.length + 1)

/-! ## Codec cursor lemmas -/

theorem advBits_comp (pos a b : Nat) : advBits (advBits pos a) b = advBits pos (a + b) := by
  induction a generalizing pos with
  | zero => simp [advBits]
  | succ a ih => simp only [advBits, Nat.succ_add]; exact ih _

theorem advBits_ge (pos k : Nat) : pos + k ≤ advBits pos k := by
  induction k generalizing pos with
  | zero => simp [advBits]
  | succ k ih =>
    have h1 := skipA_ge pos
    have h2 := ih (skipA pos + 1)
    simp only [advBits]
    omega

theorem advBits_skipA (pos k : Nat) (hk : k ≠ 0) :
    advBits (skipA pos) k = advBits pos k := by
  match k with
  | k + 1 => simp only [advBits, skipA_idem]

theorem encBits_pos (c : Nat) (arr : List Nat) (pos j k : Nat) :
    (encBits c arr pos j k).2 = advBits pos k := by
  induction k generalizing arr pos j with
  | zero => simp [encBits, advBits]
  | succ k ih => simp only [encBits, advBits]; exact ih _ _ _

theorem decBits_pos (arr : List Nat) (n pos j k : Nat) :
    (decBits arr n pos j k).2 = advBits pos k := by
  induction k generalizing arr n pos j with
  | zero => simp [decBits, advBits]
  | succ k ih => simp only [decBits, advBits]; exact ih _ _ _ _

theorem encBits_skipA (c : Nat) (arr : List Nat) (pos j k : Nat) (hk : k ≠ 0) :
    encBits c arr (skipA pos) j k = encBits c arr pos j k := by
  match k with
  | k + 1 => simp only [encBits, skipA_idem]

/-! ## Codec frame lemmas: where the encoder writes and the decoder reads -/

theorem encBits_frame_lo (c : Nat) (arr : List Nat) (pos j k q : Nat) (hq : q < pos) :
    readA (encBits c arr pos j k).1 q = readA arr q := by
  induction k generalizing arr pos j with
  | zero => simp [encBits]
  | succ k ih =>
    simp only [encBits]
    rw [ih _ _ _ (by have := skipA_ge pos; omega)]
    exact readA_writeA_ne _ _ _ _ (by have := skipA_ge pos; omega)

theorem encBits_frame_hi (c : Nat) (arr : List Nat) (pos j k q : Nat)
    (hq : advBits pos k ≤ q) :
    readA (encBits c arr pos j k).1 q = readA arr q := by
  induction k generalizing arr pos j with
  | zero => simp [encBits]
  | succ k ih =>
    simp only [encBits]
    simp only [advBits] at hq
    rw [ih _ _ _ hq]
    exact readA_writeA_ne _ _ _ _
      (by have := advBits_ge (skipA pos + 1) k; omega)

theorem encBits_frame_alpha (c : Nat) (arr : List Nat) (pos j k q : Nat)
    (hq : q % 4 = 3) :
    readA (encBits c arr pos j k).1 q = readA arr q := by
  induction k generalizing arr pos j with
  | zero => simp [encBits]
  | succ k ih =>
    simp only [encBits]
    rw [ih _ _ _]
    exact readA_writeA_ne _ _ _ _ (by have := skipA_mod pos; omega)

theorem encBits_len_mono (c : Nat) (arr : List Nat) (pos j k : Nat) :
    arr.length ≤ (encBits c arr pos j k).1.length := by
  induction k generalizing arr pos j with
  | zero => simp [encBits]
  | succ k ih =>
    simp only [encBits]
    calc arr.length ≤ (writeA arr (skipA pos) _).length := by
          rw [writeA_length]; omega
      _ ≤ _ := ih _ _ _

theorem encBits_len_ge (c : Nat) (arr : List Nat) (pos j k : Nat) (hk : k ≠ 0) :
    advBits pos k ≤ (encBits c arr pos j k).1.length := by
  induction k generalizing arr pos j with
  | zero => omega
  | succ k ih =>
    simp only [encBits, advBits]
    match k with
    | 0 =>
      simp only [encBits, advBits, writeA_length]
      omega
    | k + 1 => exact ih _ _ _ (by omega)

/-- The decoder depends only on the buffer contents between its start and
end cursors. -/
theorem decBits_congr (a1 a2 : List Nat) (n pos j k : Nat)
    (h : ∀ q, pos ≤ q → q < advBits pos k → readA a1 q = readA a2 q) :
    decBits a1 n pos j k = decBits a2 n pos j k := by
  induction k generalizing n pos j with
  | zero => simp [decBits]
  | succ k ih =>
    have hsk := skipA_ge pos
    have hadv := advBits_ge (skipA pos + 1) k
    simp only [decBits]
    rw [h (skipA pos) (by omega) (by simp only [advBits]; omega)]
    exact ih _ _ _ (fun q h1 h2 => h q (by omega) (by simpa only [advBits] using h2))

/-! ## Single-character round trip -/

theorem decBits_encBits (c : Nat) (arr : List Nat) (n pos j k : Nat) :
    decBits (encBits c arr pos j k).1 n pos j k = (orBits n c j k, advBits pos k) := by
  induction k generalizing arr n pos j with
  | zero => simp [decBits, encBits, orBits, advBits]
  | succ k ih =>
    simp only [decBits, encBits, orBits, advBits]
    by_cases hbit : c &&& (1 <<< j) ≠ 0
    · simp only [if_pos hbit]
      have hread : readA (encBits c (writeA arr (skipA pos) 255) (skipA pos + 1) (j + 1) k).1
          (skipA pos) = 255 := by
        rw [encBits_frame_lo _ _ _ _ _ _ (by omega)]
        exact readA_writeA_self _ _ _
      simp only [hread]
      rw [if_pos (show (127 : Nat) < 255 by norm_num)]
      exact ih _ _ _ _
    · simp only [if_neg hbit]
      have hread : readA (encBits c (writeA arr (skipA pos) 0) (skipA pos + 1) (j + 1) k).1
          (skipA pos) = 0 := by
        rw [encBits_frame_lo _ _ _ _ _ _ (by omega)]
        exact readA_writeA_self _ _ _
      simp only [hread]
      rw [if_neg (show ¬(127 : Nat) < 0 by norm_num)]
      exact ih _ _ _ _

set_option maxRecDepth 4096 in
theorem orBits_id_aux : ∀ c : Fin 256, orBits 0 c.1 0 8 = c.1 := by decide

theorem orBits_id (c : Nat) (hc : c < 256) : orBits 0 c 0 8 = c :=
  orBits_id_aux ⟨c, hc⟩

/-! ## Whole-string lemmas -/

theorem string2arrayBody_pos (s : List Nat) (arr : List Nat) (pos : Nat) :
    (string2arrayBody s arr pos).2 = advBits pos (8 * s.length) := by
  induction s generalizing arr pos with
  | nil => simp [string2arrayBody, advBits]
  | cons c rest ih =>
    simp only [string2arrayBody, List.length_cons]
    rw [ih, encBits_pos, advBits_comp]
    congr 1
    ring

theorem string2arrayBody_frame_lo (s : List Nat) (arr : List Nat) (pos q : Nat)
    (hq : q < pos) : readA (string2arrayBody s arr pos).1 q = readA arr q := by
  induction s generalizing arr pos with
  | nil => simp [string2arrayBody]
  | cons c rest ih =>
    simp only [string2arrayBody]
    rw [ih _ _ (by rw [encBits_pos]; have := advBits_ge pos 8; omega)]
    exact encBits_frame_lo _ _ _ _ _ _ hq

theorem string2arrayBody_frame_hi (s : List Nat) (arr : List Nat) (pos q : Nat)
    (hq : (string2arrayBody s arr pos).2 ≤ q) :
    readA (string2arrayBody s arr pos).1 q = readA arr q := by
  induction s generalizing arr pos with
  | nil => simp [string2arrayBody]
  | cons c rest ih =>
    simp only [string2arrayBody] at hq ⊢
    rw [ih _ _ hq]
    refine encBits_frame_hi _ _ _ _ _ _ ?_
    rw [← encBits_pos c arr pos 0 8]
    calc (encBits c arr pos 0 8).2
        ≤ (string2arrayBody rest (encBits c arr pos 0 8).1 (encBits c arr pos 0 8).2).2 := by
          rw [string2arrayBody_pos]
          have := advBits_ge (encBits c arr pos 0 8).2 (8 * rest.length)
          omega
      _ ≤ q := hq

theorem string2arrayBody_frame_alpha (s : List Nat) (arr : List Nat) (pos q : Nat)
    (hq : q % 4 = 3) : readA (string2arrayBody s arr pos).1 q = readA arr q := by
  induction s generalizing arr pos with
  | nil => simp [string2arrayBody]
  | cons c rest ih =>
    simp only [string2arrayBody]
    rw [ih]
    exact encBits_frame_alpha _ _ _ _ _ _ hq

theorem string2array_false_arr (s : List Nat) (arr : List Nat) (pos : Nat) :
    (string2array s arr pos false).1 = (string2arrayBody s arr pos).1 := rfl

theorem string2array_false_pos (s : List Nat) (arr : List Nat) (pos : Nat) :
    (string2array s arr pos false).2 = skipA (string2arrayBody s arr pos).2 := rfl

theorem string2array_true_eq (s : List Nat) (arr : List Nat) (pos : Nat) :
    string2array s arr pos true
      = encBits 0 (string2arrayBody s arr pos).1 (skipA (string2arrayBody s arr pos).2) 0 8 := rfl

theorem string2array_frame_lo (s : List Nat) (arr : List Nat) (pos : Nat) (zt : Bool)
    (q : Nat) (hq : q < pos) :
    readA (string2array s arr pos zt).1 q = readA arr q := by
  cases zt with
  | false =>
    rw [string2array_false_arr]
    exact string2arrayBody_frame_lo s arr pos q hq
  | true =>
    rw [string2array_true_eq]
    have h1 : pos ≤ (string2arrayBody s arr pos).2 := by
      rw [string2arrayBody_pos]
      have := advBits_ge pos (8 * s.length)
      omega
    have h2 := skipA_ge (string2arrayBody s arr pos).2
    rw [encBits_frame_lo _ _ _ _ _ _ (by omega)]
    exact string2arrayBody_frame_lo s arr pos q hq

/-- Fixed-length round trip: decoding with `len` equal to the encoded
string's length recovers the string, provided the string is non-empty and
every character code lies in 1..255. -/
theorem roundFix (s : List Nat) : ∀ acc arr pos fuel,
    (∀ c ∈ s, 1 ≤ c ∧ c ≤ 255) → s ≠ [] → s.length ≤ fuel →
    array2stringAux (string2arrayBody s arr pos).1 (acc.length + s.length) acc pos fuel
      = (acc ++ s, (string2arrayBody s arr pos).2) := by
  induction s with
  | nil => intro _ _ _ _ _ hne _; exact absurd rfl hne
  | cons c rest ih =>
    intro acc arr pos fuel hcodes _ hfuel
    obtain ⟨f, rfl⟩ : ∃ f, fuel = f + 1 := ⟨fuel - 1, by simp at hfuel; omega⟩
    have hc := hcodes c (by simp)
    have hagree : ∀ q, pos ≤ q → q < advBits pos 8 →
        readA (string2arrayBody (c :: rest) arr pos).1 q
          = readA (encBits c arr pos 0 8).1 q := by
      intro q _ hq2
      simp only [string2arrayBody]
      exact string2arrayBody_frame_lo _ _ _ _ (by rwa [encBits_pos])
    have hdec : decBits (string2arrayBody (c :: rest) arr pos).1 0 pos 0 8
        = (c, (encBits c arr pos 0 8).2) := by
      rw [decBits_congr _ (encBits c arr pos 0 8).1 _ _ _ _ hagree]
      rw [decBits_encBits, orBits_id c (by omega), encBits_pos]
    simp only [array2stringAux, hdec]
    rw [if_neg (by omega)]
    cases rest with
    | nil =>
      rw [if_pos (by simp)]
      simp [string2arrayBody]
    | cons d rest2 =>
      have hcond : ¬((acc ++ [c]).length = acc.length + (c :: d :: rest2).length) := by
        simp only [List.length_append, List.length_singleton, List.length_cons,
          List.length_nil]
        omega
      rw [if_neg hcond]
      have hres := ih (acc ++ [c]) (encBits c arr pos 0 8).1 (encBits c arr pos 0 8).2 f
        (fun x hx => hcodes x (by simp [hx])) (by simp)
        (by
          have h5 : (c :: d :: rest2).length = rest2.length + 2 := by simp
          have h6 : (d :: rest2).length = rest2.length + 1 := by simp
          rw [h6]
          rw [h5] at hfuel
          omega)
      simp only [List.length_append, List.length_singleton] at hres
      have harr : string2arrayBody (c :: d :: rest2) arr pos
          = string2arrayBody (d :: rest2) (encBits c arr pos 0 8).1 (encBits c arr pos 0 8).2 := by
        conv_lhs => rw [string2arrayBody]
      rw [harr]
      have hlen : acc.length + (c :: d :: rest2).length = acc.length + 1 + (d :: rest2).length := by
        simp only [List.length_cons]
        omega
      rw [hlen, hres]
      simp

/-- Zero-terminated round trip: decoding in zero-terminated mode after an
encode with `zeroTerminate = true` recovers the string, for character codes
in 1..255. -/
theorem roundZero (s : List Nat) : ∀ acc arr pos fuel,
    (∀ c ∈ s, 1 ≤ c ∧ c ≤ 255) → s.length + 1 ≤ fuel →
    array2stringAux (string2array s arr pos true).1 0 acc pos fuel
      = (acc ++ s, (string2array s arr pos true).2) := by
  induction s with
  | nil =>
    intro acc arr pos fuel _ hfuel
    obtain ⟨f, rfl⟩ : ∃ f, fuel = f + 1 := ⟨fuel - 1, by omega⟩
    have hterm : string2array [] arr pos true = encBits 0 arr pos 0 8 := by
      rw [string2array_true_eq]
      exact encBits_skipA _ _ _ _ _ (by omega)
    rw [hterm]
    simp only [array2stringAux]
    rw [decBits_encBits, orBits_id 0 (by omega)]
    simp [encBits_pos]
  | cons c rest ih =>
    intro acc arr pos fuel hcodes hfuel
    obtain ⟨f, rfl⟩ : ∃ f, fuel = f + 1 := ⟨fuel - 1, by omega⟩
    have hc := hcodes c (by simp)
    have hstep : string2array (c :: rest) arr pos true
        = string2array rest (encBits c arr pos 0 8).1 (encBits c arr pos 0 8).2 true := rfl
    have hagree : ∀ q, pos ≤ q → q < advBits pos 8 →
        readA (string2array (c :: rest) arr pos true).1 q
          = readA (encBits c arr pos 0 8).1 q := by
      intro q _ hq2
      rw [hstep]
      exact string2array_frame_lo _ _ _ _ _ (by rwa [encBits_pos])
    have hdec : decBits (string2array (c :: rest) arr pos true).1 0 pos 0 8
        = (c, (encBits c arr pos 0 8).2) := by
      rw [decBits_congr _ (encBits c arr pos 0 8).1 _ _ _ _ hagree]
      rw [decBits_encBits, orBits_id c (by omega), encBits_pos]
    simp only [array2stringAux, hdec]
    rw [if_neg (by omega), if_neg (by simp)]
    have hres := ih (acc ++ [c]) (encBits c arr pos 0 8).1 (encBits c arr pos 0 8).2 f
      (fun x hx => hcodes x (by simp [hx])) (by simp at hfuel ⊢; omega)
    rw [hstep, hres]
    simp

/-- Length of the encoded buffer dominates the string length (used to show
the decode fuel in `array2string` is sufficient in zero-terminated mode). -/
theorem string2array_zero_len (s : List Nat) (arr : List Nat) (pos : Nat) :
    s.length ≤ (string2array s arr pos true).1.length := by
  rw [string2array_true_eq]
  have h1 := encBits_len_ge 0 (string2arrayBody s arr pos).1
    (skipA (string2arrayBody s arr pos).2) 0 8 (by omega)
  have h2 := advBits_ge (skipA (string2arrayBody s arr pos).2) 8
  have h3 := skipA_ge (string2arrayBody s arr pos).2
  have h4 : (string2arrayBody s arr pos).2 = advBits pos (8 * s.length) :=
    string2arrayBody_pos s arr pos
  have h5 := advBits_ge pos (8 * s.length)
  omega

/-! ## Claim C1: codec round-trip -/

/-- Claim C1, counterexample to the claim as stated: with character codes
only bounded by 255 the round trip fails. Encoding the one-character string
with code 0 in fixed-length mode decodes to the empty string (the decoder
treats an all-zero character as a terminator even in fixed-length mode), and
encoding the empty string in fixed-length mode (`len = 0`) over a buffer of
0xFF bytes decodes to a non-empty string (the decode loop body runs at least
once and `len = 0` means zero-terminated mode to the decoder). -/
theorem C1_counterexample :
    ((array2string (string2array [0] [] 0 false).1 0 1).1 ≠ [0])
    ∧ ((array2string (string2array [] (List.replicate 16 255) 0 false).1 0 0).1
        ≠ ([] : List Nat)) := by
  constructor
  · decide
  · decide

/-- Claim C1 (amended): for every string of character codes in 1..255 and
every buffer and start offset, decoding after encoding at the same offset
returns exactly the original string — in zero-terminated mode
(`len = 0`, `zeroTerminate = true`) for every such string, and in
fixed-length mode (`len` = string length, `zeroTerminate = false`) for every
such non-empty string. -/
theorem C1_roundtrip (s : List Nat) (arr : List Nat) (pos : Nat)
    (hs : ∀ c ∈ s, 1 ≤ c ∧ c ≤ 255) :
    (s ≠ [] → (array2string (string2array s arr pos false).1 pos s.length).1 = s)
    ∧ (array2string (string2array s arr pos true).1 pos 0).1 = s := by
  constructor
  · intro hne
    unfold array2string
    rw [string2array_false_arr]
    have h := roundFix s [] arr pos
      (s.length + (string2arrayBody s arr pos).1.length + 1) hs hne (by omega)
    simp only [List.length_nil, Nat.zero_add, List.nil_append] at h
    rw [h]
  · unfold array2string
    have hlen := string2array_zero_len s arr pos
    have h := roundZero s [] arr pos
      (0 + (string2array s arr pos true).1.length + 1) hs (by omega)
    simp only [List.nil_append] at h
    rw [h]

/-- Claim C1 witness: the amended round trip evaluated at the concrete
two-character string with codes 72, 105. -/
theorem C1_roundtrip_witness :
    ((array2string (string2array [72, 105] [] 0 false).1 0 2).1 = [72, 105])
    ∧ ((array2string (string2array [72, 105] [] 0 true).1 0 0).1 = [72, 105]) := by
  have h := C1_roundtrip [72, 105] [] 0 (by decide)
  exact ⟨h.1 (by decide), h.2⟩

/-! ## Claim C6: the encoder never touches alpha bytes -/

/-- Claim C6: for every string, buffer and start offset, `string2array`
never writes to a buffer index congruent to 3 mod 4: every alpha byte of the
RGBA buffer reads back unchanged after encoding. -/
theorem C6_alpha_preserved (s : List Nat) (arr : List Nat) (aPos : Nat)
    (zeroTerminate : Bool) (q : Nat) (hq : q % 4 = 3) :
    readA (string2array s arr aPos zeroTerminate).1 q = readA arr q := by
  cases zeroTerminate with
  | false =>
    rw [string2array_false_arr]
    exact string2arrayBody_frame_alpha s arr aPos q hq
  | true =>
    rw [string2array_true_eq]
    rw [encBits_frame_alpha _ _ _ _ _ _ hq]
    exact string2arrayBody_frame_alpha s arr aPos q hq

/-- Claim C6 witness: encoding the one-character string with code 65 over a
buffer of 0xFF bytes leaves the alpha byte at index 7 unchanged. -/
theorem C6_alpha_preserved_witness :
    readA (string2array [65] (List.replicate 8 255) 0 true).1 7
      = readA (List.replicate 8 255) 7 :=
  C6_alpha_preserved [65] (List.replicate 8 255) 0 true 7 (by decide)

/-! ## Claim C9: layout of the exported signature -/

/-- Character codes of the 8-character project signature "tm_cmV01" written
by `clickSaveProject` (line 2234). -/
def sigCodes : List Nat := [116, 109, 95, 99, 109, 86, 48, 49]

/-- Claim C9, counterexample to the claim as stated: encoding the signature
at offset 0 (`p = string2array(tmp, imgPlus.data, p, false)` in
`clickSaveProject`) returns cursor 85, not 32: at one bit per color-channel
byte with alpha bytes skipped, the 64 signature bits occupy the 64 color
positions among bytes 0..84. -/
theorem C9_counterexample :
    (string2array sigCodes (List.replicate 100 0) 0 false).2 = 85 ∧ (85 : Nat) ≠ 32 := by
  constructor
  · decide
  · decide

/-- Claim C9 (amended): for every buffer, encoding the 8-character signature
at offset 0 consumes exactly the first 85 bytes — the returned cursor (where
the zero-terminated placement JSON begins) is 85, every byte at index ≥ 85
is unchanged, and every alpha byte (index ≡ 3 mod 4) is unchanged. -/
theorem C9_signature_layout (arr : List Nat) :
    (string2array sigCodes arr 0 false).2 = 85
    ∧ (∀ q, 85 ≤ q → readA (string2array sigCodes arr 0 false).1 q = readA arr q)
    ∧ (∀ q, q % 4 = 3 → readA (string2array sigCodes arr 0 false).1 q = readA arr q) := by
  have hpos : (string2arrayBody sigCodes arr 0).2 = 85 := by
    rw [string2arrayBody_pos]
    decide
  refine ⟨?_, ?_, ?_⟩
  · rw [string2array_false_pos, hpos]
    decide
  · intro q hq
    rw [string2array_false_arr]
    exact string2arrayBody_frame_hi _ _ _ _ (by omega)
  · intro q hq
    exact C6_alpha_preserved _ _ _ _ _ hq

/-- Claim C9 witness: the amended layout evaluated on a concrete 0xFF-filled
buffer at byte 85 and alpha byte 3. -/
theorem C9_signature_layout_witness :
    (string2array sigCodes (List.replicate 90 255) 0 false).2 = 85
    ∧ readA (string2array sigCodes (List.replicate 90 255) 0 false).1 85
        = readA (List.replicate 90 255) 85
    ∧ readA (string2array sigCodes (List.replicate 90 255) 0 false).1 3
        = readA (List.replicate 90 255) 3 :=
  ⟨(C9_signature_layout (List.replicate 90 255)).1,
    (C9_signature_layout (List.replicate 90 255)).2.1 85 (by decide),
    (C9_signature_layout (List.replicate 90 255)).2.2 3 (by decide)⟩

/-! ## Claim C8: text wrap in `drawProject` versus `clickIsWithinText`

Both routines split the text on newline, split each line on spaces, and
greedily pack words while `ctx.measureText(o + " " + spl[0]).width <
layer.width`. Strings are modelled as `List Char`; `splitJS` mirrors the JS
single-separator `String.split`, and the measuring function is a parameter
(both source loops call the same `ctx.measureText`). -/

/-- Helper for `splitJS`: accumulate the current (reversed) fragment. -/
def splitJSAux (sep : Char) : List Char → List Char → List (List Char)
  | [], cur => [cur.reverse]
  | c :: rest, cur =>
    if c = sep then cur.reverse :: splitJSAux sep rest []
    else splitJSAux sep rest (c :: cur)

/-- JS `str.split(sep)` for a one-character separator: splitting the empty
string yields `[""]`, adjacent separators yield empty fragments. -/
def splitJS (sep : Char) (s : List Char) : List (List Char) :=
  splitJSAux sep s []

/-- Inner greedy loop of the `drawProject` text case (lines 1056-1058):
`while (spl.length && (ctx.measureText(o + " " + spl[0]).width < layer.width))
o += " " + spl.shift();`. Returns the grown line and the remaining words. -/
def drawTextTake (measure : List Char → ℚ) (width : ℚ) (o : List Char) :
    List (List Char) → List Char × List (List Char)
  | [] => (o, [])
  | w :: rest =>
    if measure (o ++ [' '] ++ w) < width then drawTextTake measure width (o ++ [' '] ++ w) rest
    else (o, w :: rest)

theorem drawTextTake_len (measure : List Char → ℚ) (width : ℚ) (o : List Char)
    (spl : List (List Char)) : (drawTextTake measure width o spl).2.length ≤ spl.length := by
  induction spl generalizing o with
  | nil => simp [drawTextTake]
  | cons w rest ih =>
    simp only [drawTextTake]
    split
    · exact le_trans (ih _) (by simp)
    · simp

/-- Outer loop of the `drawProject` text case (lines 1054-1062): repeatedly
shift the first word, greedily extend it, and emit the resulting line
(`ctx.fillText(o, …)`). -/
def drawTextLine (measure : List Char → ℚ) (width : ℚ) :
    List (List Char) → List (List Char)
  | [] => []
  | w :: rest =>
    let r := drawTextTake measure width w rest
    r.1 :: drawTextLine measure width r.2
termination_by spl => spl.length
decreasing_by
  have := drawTextTake_len measure width w rest
  simp only [List.length_cons]
  omega

/-- The full sequence of rendered text lines produced by the `drawProject`
text case (lines 1047-1063): split on newline, then wrap each source line. -/
def drawProjectWrap (measure : List Char → ℚ) (width : ℚ) (data : List Char) :
    List (List Char) :=
  ((splitJS (Char.ofNat 10) data).map (fun line => drawTextLine measure width (splitJS ' ' line))).join

/-- Inner greedy loop of `clickIsWithinText` (lines 2697-2699), identical in
form to the one in `drawProject`. -/
def clickTextTake (measure : List Char → ℚ) (width : ℚ) (o : List Char) :
    List (List Char) → List Char × List (List Char)
  | [] => (o, [])
  | w :: rest =>
    if measure (o ++ [' '] ++ w) < width then clickTextTake measure width (o ++ [' '] ++ w) rest
    else (o, w :: rest)

theorem clickTextTake_len (measure : List Char → ℚ) (width : ℚ) (o : List Char)
    (spl : List (List Char)) : (clickTextTake measure width o spl).2.length ≤ spl.length := by
  induction spl generalizing o with
  | nil => simp [clickTextTake]
  | cons w rest ih =>
    simp only [clickTextTake]
    split
    · exact le_trans (ih _) (by simp)
    · simp

/-- Outer loop of `clickIsWithinText` (lines 2695-2713): the hit test walks
the same wrapped lines, incrementing `cnt` once per produced line; this
returns that sequence of lines. -/
def clickTextLine (measure : List Char → ℚ) (width : ℚ) :
    List (List Char) → List (List Char)
  | [] => []
  | w :: rest =>
    let r := clickTextTake measure width w rest
    r.1 :: clickTextLine measure width r.2
termination_by spl => spl.length
decreasing_by
  have := clickTextTake_len measure width w rest
  simp only [List.length_cons]
  omega

/-- The full sequence of wrapped lines replayed by `clickIsWithinText`
(lines 2691-2713): split `layer.data` on newline, wrap each source line. -/
def clickTextWrap (measure : List Char → ℚ) (width : ℚ) (data : List Char) :
    List (List Char) :=
  ((splitJS (Char.ofNat 10) data).map (fun line => clickTextLine measure width (splitJS ' ' line))).join

theorem clickTextTake_eq_drawTextTake (measure : List Char → ℚ) (width : ℚ)
    (spl : List (List Char)) : ∀ o,
    clickTextTake measure width o spl = drawTextTake measure width o spl := by
  induction spl with
  | nil => intro o; rfl
  | cons w rest ih =>
    intro o
    simp only [clickTextTake, drawTextTake]
    split
    · exact ih _
    · rfl

theorem clickTextLine_eq_drawTextLine (measure : List Char → ℚ) (width : ℚ)
    (spl : List (List Char)) :
    clickTextLine measure width spl = drawTextLine measure width spl := by
  have H : ∀ n spl, List.length spl ≤ n →
      clickTextLine measure width spl = drawTextLine measure width spl := by
    intro n
    induction n with
    | zero =>
      intro spl h
      have : spl = [] := List.length_eq_zero.mp (by omega)
      subst this
      simp [clickTextLine, drawTextLine]
    | succ n ih =>
      intro spl h
      match spl with
      | [] => simp [clickTextLine, drawTextLine]
      | w :: rest =>
        rw [clickTextLine, drawTextLine, clickTextTake_eq_drawTextTake]
        have hlen := drawTextTake_len measure width w rest
        simp only [List.length_cons] at h
        rw [ih _ (by omega)]
  exact H spl.length spl le_rfl

/-- Claim C8: for every text-measurement function, width and data string,
the greedy word wrap performed by the Renderer (`drawProject`, text case)
and the one replayed by hit-testing (`clickIsWithinText`) produce exactly
the same sequence of lines; in particular, for data "AAAA BBBB CCCC" with a
width such that "AAAA BBBB" fits but "AAAA BBBB CCCC" does not (measure =
character count, width 10), both break after "AAAA BBBB". -/
theorem C8_wrap_consistency :
    (∀ (measure : List Char → ℚ) (width : ℚ) (data : List Char),
      clickTextWrap measure width data = drawProjectWrap measure width data)
    ∧ drawProjectWrap (fun s => (s.length : ℚ)) 10
        ['A', 'A', 'A', 'A', ' ', 'B', 'B', 'B', 'B', ' ', 'C', 'C', 'C', 'C']
        = [['A', 'A', 'A', 'A', ' ', 'B', 'B', 'B', 'B'], ['C', 'C', 'C', 'C']]
    ∧ clickTextWrap (fun s => (s.length : ℚ)) 10
        ['A', 'A', 'A', 'A', ' ', 'B', 'B', 'B', 'B', ' ', 'C', 'C', 'C', 'C']
        = [['A', 'A', 'A', 'A', ' ', 'B', 'B', 'B', 'B'], ['C', 'C', 'C', 'C']] := by
  have hmain : ∀ (measure : List Char → ℚ) (width : ℚ) (data : List Char),
      clickTextWrap measure width data = drawProjectWrap measure width data := by
    intro measure width data
    unfold clickTextWrap drawProjectWrap
    congr 1
    exact List.map_congr_left
      (fun line _ => clickTextLine_eq_drawTextLine measure width (splitJS ' ' line))
  refine ⟨hmain, ?_, ?_⟩
  · simp +decide [drawProjectWrap, splitJS, splitJSAux, drawTextLine, drawTextTake]
  · simp +decide [clickTextWrap, splitJS, splitJSAux, clickTextLine, clickTextTake]

/-! ## Layer records

A layer record with the fields the verified routines touch. JS layers are
dynamic objects; fields that can be `undefined` in the source
(`style`, `weight`, `alpha`) are modelled as `Option`. -/

structure Layer where
  ltype : String
  x : ℚ
  y : ℚ
  width : ℚ
  height : ℚ
  data : String
  color : String
  font : String
  justify : String
  lineSpace : ℚ
  name : String
  iNum : Int
  sx : ℚ
  sy : ℚ
  swidth : ℚ
  sheight : ℚ
  style : Option String
  weight : Option String
  alpha : Option ℚ
deriving DecidableEq

/-- JS truthiness test `!layer.style`: true for `undefined` and for the
empty string. -/
def styleFalsy : Option String → Bool
  | none => true
  | some s => s = ""

/-! ## Claim C10: the only layer mutations `drawProject` performs

`drawProject` (lines 1012-1214) draws each layer onto the canvas context;
the only assignments whose target is a layer record are
`if (!layer.style) layer.style = "normal";` in the text case (line 1054) and
`if (layer.alpha == undefined) layer.alpha = 100;` in the
userFile/embedded/webFile case (line 1169, guarded by `layer.iNum != -1`).
All other assignments target the canvas, the context, or locals; `autoSave`
copies each layer shallowly before editing the copy, and the debug overlay
only reads layers. `drawLayerUpdate` is the per-record effect of one
`drawProject` pass. -/
def drawLayerUpdate (l : Layer) : Layer :=
  if l.ltype = "text" then
    (if styleFalsy l.style then { l with style := some "normal" } else l)
  else if l.ltype = "userFile" ∨ l.ltype = "embedded" ∨ l.ltype = "webFile" then
    (if l.iNum ≠ -1 ∧ l.alpha = none then { l with alpha := some 100 } else l)
  else l

/-- Effect of `drawProject` on the whole layer store: every drawn layer
record goes through `drawLayerUpdate`. -/
def drawProjectLayers (layers : List (String × Layer)) : List (String × Layer) :=
  layers.map (fun kv => (kv.1, drawLayerUpdate kv.2))

/-- Claim C10: drawing mutates no layer field other than `style` and
`alpha`; `style` changes only on a text layer whose `style` is
missing/falsy, and then to "normal"; `alpha` changes only on a
userFile/embedded/webFile layer whose `alpha` is undefined, and then
to 100. -/
theorem C10_draw_frame (l : Layer) :
    (drawLayerUpdate l).ltype = l.ltype
    ∧ (drawLayerUpdate l).x = l.x
    ∧ (drawLayerUpdate l).y = l.y
    ∧ (drawLayerUpdate l).width = l.width
    ∧ (drawLayerUpdate l).height = l.height
    ∧ (drawLayerUpdate l).data = l.data
    ∧ (drawLayerUpdate l).color = l.color
    ∧ (drawLayerUpdate l).font = l.font
    ∧ (drawLayerUpdate l).justify = l.justify
    ∧ (drawLayerUpdate l).lineSpace = l.lineSpace
    ∧ (drawLayerUpdate l).name = l.name
    ∧ (drawLayerUpdate l).iNum = l.iNum
    ∧ (drawLayerUpdate l).sx = l.sx
    ∧ (drawLayerUpdate l).sy = l.sy
    ∧ (drawLayerUpdate l).swidth = l.swidth
    ∧ (drawLayerUpdate l).sheight = l.sheight
    ∧ (drawLayerUpdate l).weight = l.weight
    ∧ ((drawLayerUpdate l).style ≠ l.style →
        l.ltype = "text" ∧ styleFalsy l.style = true
          ∧ (drawLayerUpdate l).style = some "normal")
    ∧ ((drawLayerUpdate l).alpha ≠ l.alpha →
        (l.ltype = "userFile" ∨ l.ltype = "embedded" ∨ l.ltype = "webFile")
          ∧ l.alpha = none ∧ (drawLayerUpdate l).alpha = some 100) := by
  unfold drawLayerUpdate
  split
  · split <;> simp_all
  · split
    · split <;> simp_all
    · simp_all

/-- Claim C10 witness: the frame property applied to a concrete text layer
with a missing style, discharging the style implication. -/
theorem C10_draw_frame_witness :
    (drawLayerUpdate
        ⟨"text", 1, 2, 3, 4, "hi", "#000000", "Prototype", "center", 4, "t", 0,
          0, 0, 0, 0, none, none, none⟩).width = 3
    ∧ (drawLayerUpdate
        ⟨"text", 1, 2, 3, 4, "hi", "#000000", "Prototype", "center", 4, "t", 0,
          0, 0, 0, 0, none, none, none⟩).style = some "normal" :=
  ⟨(C10_draw_frame _).2.2.2.1,
    ((C10_draw_frame
      ⟨"text", 1, 2, 3, 4, "hi", "#000000", "Prototype", "center", 4, "t", 0,
        0, 0, 0, 0, none, none, none⟩).2.2.2.2.2.2.2.2.2.2.2.2.2.2.2.2.2.1
      (by decide)).2.2⟩

/-! ## Claim C2: project-signature rejection in `userImageLoaded`

`userImageLoaded` (lines 1796-1902) wraps its synchronous body in
`try … catch`. The synchronous body only resizes the canvas, draws the
image, stores `oLoadedProject`, and calls `setTimeout(cb, 50)`; none of this
throws for the decode path. The decode work, including
`if (ob.str != tmp) throw "project"` (line 1819), runs inside the
`setTimeout` callback — a separate event-loop task that executes after
`userImageLoaded` (and its `try` block) has already returned, so the
`catch (error)` block (lines 1891-1899), which exists precisely to absorb
the thrown `"project"` and reset `projectLoad`, can never observe it. -/

/-- Mutable state visible to the project-decode path: the `projectLoad`
flag, the live layer store, and the uncaught exception surfaced to the
host (none while no task has thrown). -/
structure DecodeState where
  projectLoad : Bool
  layers : List (String × Layer)
  uncaught : Option String
deriving DecidableEq

/-- The `setTimeout` callback body of `userImageLoaded` (lines 1811-1890):
decode the 8-character header and compare it with the signature; on
mismatch `throw "project"` (no state was mutated yet at that point). The
successful-signature remainder of the callback (JSON parsing, layer
merging, `projectLoad = false`) is abstracted as `restOfDecode`. An
`Except.error` carries the thrown value and the state at throw time. -/
def projectDecodeCallback (restOfDecode : DecodeState → Except (String × DecodeState) DecodeState)
    (imgData : List Nat) (st : DecodeState) : Except (String × DecodeState) DecodeState :=
  if (array2string imgData 0 8).1 = sigCodes then restOfDecode st
  else Except.error ("project", st)

/-- Run one scheduled event-loop task. A task runs with no enclosing
`try`/`catch`, so a thrown value becomes an uncaught exception reported to
the host; the state mutations made before the throw persist. -/
def runScheduledTask (task : DecodeState → Except (String × DecodeState) DecodeState)
    (st : DecodeState) : DecodeState :=
  match task st with
  | Except.ok st2 => st2
  | Except.error e => { e.2 with uncaught := some e.1 }

/-- The complete project-load path of `userImageLoaded` when `projectLoad`
is set: the synchronous body succeeds (canvas work only), its `try`/`catch`
completes without catching anything, and the scheduled decode callback then
runs as its own task. -/
def userImageLoadedProject (restOfDecode : DecodeState → Except (String × DecodeState) DecodeState)
    (imgData : List Nat) (st : DecodeState) : DecodeState :=
  runScheduledTask (projectDecodeCallback restOfDecode imgData) st

/-- Claim C2: the code, not the claim, is wrong here. For every imported
image whose first 8 decoded characters differ from "tm_cmV01", the decode
path leaves the layer store unchanged (that part of the claim holds) but
the `throw "project"` escapes the `setTimeout` callback as an uncaught
exception and `projectLoad` is never reset to false — the `try`/`catch` of
`userImageLoaded` has already returned when the callback runs. -/
theorem C2_signature_mismatch_uncaught
    (restOfDecode : DecodeState → Except (String × DecodeState) DecodeState)
    (imgData : List Nat) (st : DecodeState)
    (hsig : (array2string imgData 0 8).1 ≠ sigCodes)
    (hload : st.projectLoad = true) :
    (userImageLoadedProject restOfDecode imgData st).uncaught = some "project"
    ∧ (userImageLoadedProject restOfDecode imgData st).projectLoad = true
    ∧ (userImageLoadedProject restOfDecode imgData st).layers = st.layers := by
  unfold userImageLoadedProject runScheduledTask projectDecodeCallback
  rw [if_neg hsig]
  exact ⟨rfl, hload, rfl⟩

/-- Claim C2 witness: an all-zero-pixel image (any plain photograph without
the embedded signature) decodes to the empty header, so the failing branch
is taken: the final state still has `projectLoad = true` and carries the
uncaught `"project"` exception. -/
theorem C2_signature_mismatch_uncaught_witness :
    (userImageLoadedProject Except.ok (List.replicate 40 0) ⟨true, [], none⟩).uncaught
        = some "project"
    ∧ (userImageLoadedProject Except.ok (List.replicate 40 0) ⟨true, [], none⟩).projectLoad
        = true
    ∧ (userImageLoadedProject Except.ok (List.replicate 40 0) ⟨true, [], none⟩).layers = [] :=
  C2_signature_mismatch_uncaught Except.ok (List.replicate 40 0) ⟨true, [], none⟩
    (by decide) rfl

/-! ## Claim C7: base-layer merge during project decode

The decode callback (lines 1864-1884) walks the parsed `newLayers` with an
index loop; each iteration first checks
`if ((newLayers[0].type == "base") && (aLayers["dragdropdiv0"]))` and, when
it holds, copies only `width`/`height`/`color` of `newLayers[0]` into the
live base layer and shifts the list; it then inspects `newLayers[i]` and
converts `userFile`/`embedded` entries to `embedded` with a fresh image
index. The remaining list is handed to `loadFrom` (lines 1458-1536). -/

/-- Live layer store projected onto what the decode path manipulates: the
`dragdropdiv0` base slot and the remaining layers in order. -/
structure Store where
  base : Option Layer
  rest : List Layer
deriving DecidableEq

/-- The per-iteration base-merge check (lines 1867-1873): if the first
remaining decoded layer is a `base` and the live store has a base layer,
merge `width`/`height`/`color` into the live base and shift the decoded
list. -/
def mergeHead (st : Store) (layers : List Layer) : Store × List Layer :=
  match layers, st.base with
  | l0 :: tail, some b =>
    if l0.ltype = "base" then
      let b2 := { b with width := l0.width, height := l0.height, color := l0.color }
      ({ st with base := some b2 }, tail)
    else (st, layers)
  | _, _ => (st, layers)

theorem mergeHead_len (st : Store) (layers : List Layer) :
    (mergeHead st layers).2.length ≤ layers.length := by
  unfold mergeHead
  match layers, st.base with
  | [], none => simp
  | [], some b => simp
  | l0 :: tail, none => simp
  | l0 :: tail, some b =>
    simp only
    split <;> simp

/-- Result of the decode merge loop: the store after the merges, the next
free user-image index, the remaining decoded layers, and whether the loop
aborted with a TypeError (`newLayers[i]` was `undefined` after a shift). -/
structure MergeResult where
  st : Store
  uCount : Nat
  layers : List Layer
  threw : Bool
deriving DecidableEq

/-- The decode merge loop (lines 1865-1884):
`for (let i=0; i < newLayers.length; i++) { base-merge check;
userFile/embedded conversion of newLayers[i] }`. Reading `.type` of
`newLayers[i]` when the shift has moved the end of the list before index
`i` throws a TypeError, which aborts the loop (`threw = true`). -/
def baseMergeLoop (st : Store) (uCount : Nat) (layers : List Layer) (i : Nat) :
    MergeResult :=
  if h : i < layers.length then
    let m := mergeHead st layers
    match m.2[i]? with
    | none => ⟨m.1, uCount, m.2, true⟩
    | some li =>
      if li.ltype = "userFile" ∨ li.ltype = "embedded" then
        baseMergeLoop m.1 (uCount + 1)
          (m.2.set i { li with iNum := uCount, ltype := "embedded" }) (i + 1)
      else
        baseMergeLoop m.1 uCount m.2 (i + 1)
  else ⟨st, uCount, layers, false⟩
termination_by layers.length - i
decreasing_by
  · have := mergeHead_len st layers
    simp only [List.length_set]
    omega
  · have := mergeHead_len st layers
    omega

/-- The `scale` record of `loadFrom` (line 1463): multipliers applied to the
`x`/`y`/`width`/`height` keys of subsequently loaded layers after the
legacy-size resize branch has fired. -/
structure ScaleRec where
  x : ℚ
  y : ℚ
  width : ℚ
  height : ℚ
deriving DecidableEq

/-- The initial scale `{x:1, y:1, width:1, height:1}`. -/
def scaleOne : ScaleRec := ⟨1, 1, 1, 1⟩

/-- The scale set by the legacy-size resize branch (lines 1544-1548). -/
def resizeScale : ScaleRec := ⟨826 / 750, 1126 / 1050, 826 / 750, 1126 / 1050⟩

/-- Field copy performed by the `block`/`text`/`production`/`effect`/`line`
cases of `loadFrom` (lines 1503-1509): every key except `type`/`params` is
copied onto the freshly constructed layer, with the keys named in `scale`
multiplied by the current scale; for `block` the saved index is ignored and
the runtime index is re-resolved (`newINum`). -/
def loadCopyScaled (scale : ScaleRec) (l : Layer) (newINum : Int) : Layer :=
  { l with x := scale.x * l.x, y := scale.y * l.y,
           width := scale.width * l.width, height := scale.height * l.height,
           iNum := newINum }

/-- The `base` case of `loadFrom` (lines 1536-1553): copy every key of the
saved layer onto the live base layer (no scaling), checking after each copy
whether the value equals 1050 and, if the user confirms, applying the
legacy resize (height 1126, width 826, scale set) and breaking out of the
key loop. Keys are visited in the declaration order of `Layer` (the JS
`for…in` order is the saved object's insertion order). Returns the merged
base and the (possibly updated) scale. -/
def loadBase (confirm : Bool) (scale : ScaleRec) (b l : Layer) : Layer × ScaleRec :=
  let resized := fun (x : Layer) => { x with height := (1126 : ℚ), width := (826 : ℚ) }
  let b1 := { b with x := l.x }
  if l.x = 1050 ∧ confirm then (resized b1, resizeScale) else
  let b2 := { b1 with y := l.y }
  if l.y = 1050 ∧ confirm then (resized b2, resizeScale) else
  let b3 := { b2 with width := l.width }
  if l.width = 1050 ∧ confirm then (resized b3, resizeScale) else
  let b4 := { b3 with height := l.height }
  if l.height = 1050 ∧ confirm then (resized b4, resizeScale) else
  let b5 := { b4 with data := l.data, color := l.color, font := l.font, justify := l.justify }
  let b6 := { b5 with lineSpace := l.lineSpace }
  if l.lineSpace = 1050 ∧ confirm then (resized b6, resizeScale) else
  let b7 := { b6 with name := l.name }
  let b8 := { b7 with iNum := l.iNum }
  if l.iNum = 1050 ∧ confirm then (resized b8, resizeScale) else
  let b9 := { b8 with sx := l.sx }
  if l.sx = 1050 ∧ confirm then (resized b9, resizeScale) else
  let b10 := { b9 with sy := l.sy }
  if l.sy = 1050 ∧ confirm then (resized b10, resizeScale) else
  let b11 := { b10 with swidth := l.swidth }
  if l.swidth = 1050 ∧ confirm then (resized b11, resizeScale) else
  let b12 := { b11 with sheight := l.sheight }
  if l.sheight = 1050 ∧ confirm then (resized b12, resizeScale) else
  let b13 := { b12 with style := l.style, weight := l.weight }
  let b14 := { b13 with alpha := l.alpha }
  if l.alpha = some 1050 ∧ confirm then (resized b14, resizeScale) else
  (b14, scale)

/-- Effect of one `loadFrom` loop iteration (lines 1465-1560) on the
projected store. `resolveI` stands for the catalog-index resolution done by
`addBlock`; `confirm` is the answer to the legacy-resize dialog. The
`base` case with no live base layer throws (assignment to `undefined`),
which `loadFrom`'s own `try` swallows, aborting the loop with the store as
already mutated (`Except.error`). The `default` case only alerts. The
decode path calls `loadFrom(newLayers)` with `autoload` undefined, so the
`embedded`/`userFile` autoload guards do not fire. -/
def loadFromStep (resolveI : Layer → Int) (confirm : Bool) (st : Store)
    (scale : ScaleRec) (l : Layer) : Except Store (Store × ScaleRec) :=
  if l.ltype = "block" ∨ l.ltype = "text" ∨ l.ltype = "production"
      ∨ l.ltype = "effect" ∨ l.ltype = "line" then
    let newINum := if l.ltype = "block" then resolveI l else l.iNum
    Except.ok ({ st with rest := st.rest ++ [loadCopyScaled scale l newINum] }, scale)
  else if l.ltype = "embedded" then
    Except.ok ({ st with rest := st.rest ++ [l] }, scale)
  else if l.ltype = "webFile" then
    Except.ok ({ st with rest := st.rest ++ [{ l with iNum := -1 }] }, scale)
  else if l.ltype = "userFile" then
    Except.ok ({ st with rest := st.rest ++ [{ l with iNum := -1 }] }, scale)
  else if l.ltype = "base" then
    match st.base with
    | none => Except.error st
    | some b =>
      let r := loadBase confirm scale b l
      Except.ok ({ st with base := some r.1 }, r.2)
  else
    Except.ok (st, scale)

/-- The `loadFrom` loop over the saved layers, with its surrounding `try`:
an exception stops the iteration and the already-applied mutations stand. -/
def loadFromList (resolveI : Layer → Int) (confirm : Bool) :
    List Layer → Store → ScaleRec → Store
  | [], st, _ => st
  | l :: rest, st, scale =>
    match loadFromStep resolveI confirm st scale l with
    | Except.ok r => loadFromList resolveI confirm rest r.1 r.2
    | Except.error stE => stE

/-- The layer phase of the decode callback: run the base-merge loop over the
parsed layers (starting the image index at the current user-image count
`u0`), then — unless the loop threw — hand the remaining layers to
`loadFrom`. -/
def decodeLayersPhase (resolveI : Layer → Int) (confirm : Bool) (u0 : Nat)
    (st : Store) (newLayers : List Layer) : Store :=
  let r := baseMergeLoop st u0 newLayers 0
  if r.threw then r.st
  else loadFromList resolveI confirm r.layers r.st scaleOne

/-- Number of base layers in the projected store. -/
def baseCount (st : Store) : Nat :=
  (if st.base.isSome then 1 else 0) + (st.rest.filter (fun l => l.ltype = "base")).length

theorem mergeHead_no_base (st : Store) (layers : List Layer)
    (h : ∀ l ∈ layers, l.ltype ≠ "base") : mergeHead st layers = (st, layers) := by
  unfold mergeHead
  match layers, hb : st.base with
  | [], none => rfl
  | [], some b => rfl
  | l0 :: tail, none => rfl
  | l0 :: tail, some b =>
    simp only
    rw [if_neg (h l0 (by simp))]

/-- Once no `base` layer remains in the decoded list, the merge loop leaves
the store untouched and preserves non-baseness of every list entry. -/
theorem baseMergeLoop_no_base (bb : Layer) : ∀ (n : Nat) (st : Store) (u : Nat)
    (layers : List Layer) (i : Nat), layers.length - i ≤ n → st.base = some bb →
    (∀ l ∈ layers, l.ltype ≠ "base") →
    (baseMergeLoop st u layers i).st = st
    ∧ ∀ l ∈ (baseMergeLoop st u layers i).layers, l.ltype ≠ "base" := by
  intro n
  induction n with
  | zero =>
    intro st u layers i hn hb hnb
    have hge : ¬(i < layers.length) := by omega
    rw [baseMergeLoop, dif_neg hge]
    exact ⟨rfl, hnb⟩
  | succ n ih =>
    intro st u layers i hn hb hnb
    by_cases h : i < layers.length
    · rw [baseMergeLoop, dif_pos h]
      simp only [mergeHead_no_base st layers hnb]
      rw [List.getElem?_eq_getElem h]
      simp only
      have hli : layers[i] ∈ layers := List.getElem_mem h
      split
      · refine ih st (u + 1) _ (i + 1) (by simp only [List.length_set]; omega) hb ?_
        intro l hl
        rcases List.mem_or_eq_of_mem_set hl with h1 | h1
        · exact hnb l h1
        · subst h1; simp
      · exact ih st u layers (i + 1) (by omega) hb hnb
    · rw [baseMergeLoop, dif_neg h]
      exact ⟨rfl, hnb⟩

theorem loadCopyScaled_ltype (scale : ScaleRec) (l : Layer) (ni : Int) :
    (loadCopyScaled scale l ni).ltype = l.ltype := rfl

theorem loadFromStep_no_base (resolveI : Layer → Int) (confirm : Bool) (st : Store)
    (scale : ScaleRec) (l : Layer) (hl : l.ltype ≠ "base") :
    ∃ st2 scale2, loadFromStep resolveI confirm st scale l = Except.ok (st2, scale2)
    ∧ st2.base = st.base
    ∧ ∀ x ∈ st2.rest, x ∈ st.rest ∨ x.ltype = l.ltype := by
  have hmem : ∀ (y : Layer), y.ltype = l.ltype →
      ∀ x ∈ st.rest ++ [y], x ∈ st.rest ∨ x.ltype = l.ltype := by
    intro y hy x hx
    rcases List.mem_append.mp hx with hA | hA
    · exact Or.inl hA
    · simp only [List.mem_singleton] at hA
      subst hA
      exact Or.inr hy
  by_cases h1 : l.ltype = "block" ∨ l.ltype = "text" ∨ l.ltype = "production"
      ∨ l.ltype = "effect" ∨ l.ltype = "line"
  · have he : loadFromStep resolveI confirm st scale l
        = Except.ok ({ st with rest := st.rest ++
            [loadCopyScaled scale l (if l.ltype = "block" then resolveI l else l.iNum)] },
          scale) := by
      unfold loadFromStep
      rw [if_pos h1]
    exact ⟨_, _, he, rfl, hmem _ rfl⟩
  · by_cases h2 : l.ltype = "embedded"
    · have he : loadFromStep resolveI confirm st scale l
          = Except.ok ({ st with rest := st.rest ++ [l] }, scale) := by
        unfold loadFromStep
        rw [if_neg h1, if_pos h2]
      exact ⟨_, _, he, rfl, hmem _ rfl⟩
    · by_cases h3 : l.ltype = "webFile"
      · have he : loadFromStep resolveI confirm st scale l
            = Except.ok ({ st with rest := st.rest ++ [{ l with iNum := -1 }] }, scale) := by
          unfold loadFromStep
          rw [if_neg h1, if_neg h2, if_pos h3]
        exact ⟨_, _, he, rfl, hmem _ rfl⟩
      · by_cases h4 : l.ltype = "userFile"
        · have he : loadFromStep resolveI confirm st scale l
              = Except.ok ({ st with rest := st.rest ++ [{ l with iNum := -1 }] }, scale) := by
            unfold loadFromStep
            rw [if_neg h1, if_neg h2, if_neg h3, if_pos h4]
          exact ⟨_, _, he, rfl, hmem _ rfl⟩
        · have he : loadFromStep resolveI confirm st scale l = Except.ok (st, scale) := by
            unfold loadFromStep
            rw [if_neg h1, if_neg h2, if_neg h3, if_neg h4, if_neg hl]
          exact ⟨_, _, he, rfl, fun x hx => Or.inl hx⟩

/-- `loadFrom` over a list with no `base` layer never touches the base slot
and appends only non-`base` layers. -/
theorem loadFromList_no_base (resolveI : Layer → Int) (confirm : Bool) :
    ∀ (layers : List Layer) (st : Store) (scale : ScaleRec),
    (∀ l ∈ layers, l.ltype ≠ "base") →
    (loadFromList resolveI confirm layers st scale).base = st.base
    ∧ ∀ x ∈ (loadFromList resolveI confirm layers st scale).rest,
        x ∈ st.rest ∨ x.ltype ≠ "base" := by
  intro layers
  induction layers with
  | nil =>
    intro st scale _
    exact ⟨rfl, fun x hx => Or.inl hx⟩
  | cons l rest ih =>
    intro st scale hnb
    obtain ⟨st2, scale2, heq, hbase, hrest⟩ :=
      loadFromStep_no_base resolveI confirm st scale l (hnb l (by simp))
    have hrec := ih st2 scale2 (fun x hx => hnb x (by simp [hx]))
    simp only [loadFromList, heq]
    refine ⟨hrec.1.trans hbase, ?_⟩
    intro x hx
    rcases hrec.2 x hx with h1 | h1
    · rcases hrest x h1 with h2 | h2
      · exact Or.inl h2
      · exact Or.inr (h2 ▸ hnb l (by simp))
    · exact Or.inr h1

/-- Claim C7 (amended): if the first decoded layer has type `base`, the
live store already holds a base layer, no other decoded layer has type
`base`, and the live non-base layers really are non-base, then the decode
path merges exactly `width`/`height`/`color` of the decoded base into the
existing base (all its other fields unchanged), removes the decoded base
from the list, and afterwards exactly one base layer exists, whether or not
the merge loop aborts with the single-layer TypeError. -/
theorem C7_base_merge (resolveI : Layer → Int) (confirm : Bool) (u0 : Nat)
    (st : Store) (b l0 : Layer) (tail : List Layer)
    (hbase : st.base = some b)
    (hrest : ∀ l ∈ st.rest, l.ltype ≠ "base")
    (hl0 : l0.ltype = "base")
    (htail : ∀ l ∈ tail, l.ltype ≠ "base") :
    (decodeLayersPhase resolveI confirm u0 st (l0 :: tail)).base
      = some { b with width := l0.width, height := l0.height, color := l0.color }
    ∧ ∀ l ∈ (decodeLayersPhase resolveI confirm u0 st (l0 :: tail)).rest,
        l.ltype ≠ "base" := by
  set b2 : Layer := { b with width := l0.width, height := l0.height, color := l0.color }
  set st1 : Store := { st with base := some b2 }
  have hmh : mergeHead st (l0 :: tail) = (st1, tail) := by
    unfold mergeHead
    rw [hbase]
    simp only [if_pos hl0]
  have hloop : (baseMergeLoop st u0 (l0 :: tail) 0).st = st1
      ∧ ∀ l ∈ (baseMergeLoop st u0 (l0 :: tail) 0).layers, l.ltype ≠ "base" := by
    rw [baseMergeLoop, dif_pos (by simp)]
    simp only [hmh]
    match htl : tail[0]? with
    | none => exact ⟨rfl, fun l hl => htail l hl⟩
    | some l1 =>
      have h0 : 0 < tail.length := by
        by_contra hc
        rw [List.getElem?_eq_none_iff.mpr (by omega)] at htl
        exact Option.noConfusion htl
      simp only
      split
      · refine baseMergeLoop_no_base b2 (tail.length) st1 (u0 + 1) _ 1
          (by simp only [List.length_set]; omega) rfl ?_
        intro l hl
        rcases List.mem_or_eq_of_mem_set hl with h1 | h1
        · exact htail l h1
        · subst h1; simp
      · exact baseMergeLoop_no_base b2 tail.length st1 u0 tail 1 (by omega) rfl htail
  have hphase : decodeLayersPhase resolveI confirm u0 st (l0 :: tail)
      = (if (baseMergeLoop st u0 (l0 :: tail) 0).threw then
          (baseMergeLoop st u0 (l0 :: tail) 0).st
        else loadFromList resolveI confirm (baseMergeLoop st u0 (l0 :: tail) 0).layers
          (baseMergeLoop st u0 (l0 :: tail) 0).st scaleOne) := rfl
  rw [hphase]
  split
  · exact ⟨by rw [hloop.1], fun l hl => hrest l (by
      have := hloop.1
      have hr : (baseMergeLoop st u0 (l0 :: tail) 0).st.rest = st.rest := by
        rw [this]
      rwa [hr] at hl)⟩
  · have hll := loadFromList_no_base resolveI confirm
      (baseMergeLoop st u0 (l0 :: tail) 0).layers
      (baseMergeLoop st u0 (l0 :: tail) 0).st scaleOne hloop.2
    refine ⟨hll.1.trans (by rw [hloop.1]), ?_⟩
    intro l hl
    rcases hll.2 l hl with h1 | h1
    · refine hrest l ?_
      have hr : (baseMergeLoop st u0 (l0 :: tail) 0).st.rest = st.rest := by
        rw [hloop.1]
      rwa [hr] at h1
    · exact h1

/-- Concrete live base layer used in the claim C7 instances. -/
def cexB0 : Layer :=
  ⟨"base", 0, 0, 1, 2, "", "#000000", "", "", 0, "bg", 0, 0, 0, 0, 0, none, none, none⟩

/-- Concrete decoded base layer (width 10, height 11, color "#aaaaaa"). -/
def cexBA : Layer :=
  ⟨"base", 0, 0, 10, 11, "", "#aaaaaa", "", "", 0, "", 0, 0, 0, 0, 0, none, none, none⟩

/-- Second concrete decoded base layer (width 20, height 21, color
"#bbbbbb"). -/
def cexBB : Layer :=
  ⟨"base", 0, 0, 20, 21, "", "#bbbbbb", "", "", 0, "", 0, 0, 0, 0, 0, none, none, none⟩

/-- Concrete decoded embedded layer. -/
def cexEmb : Layer :=
  ⟨"embedded", 0, 0, 5, 5, "", "", "", "", 0, "e", 7, 0, 0, 0, 0, none, none, none⟩

/-- Claim C7, counterexample to the claim as stated: for the decoded list
`[cexBA, cexBB]` (first layer of type base, live base present) the final
base layer's width is 20 — the second decoded base's width, merged by
`loadFrom`'s base case — not the decoded (first) base's width 10, because
the merge loop only shifts the list head once per iteration and the loop
bound is re-checked against the shortened list, leaving the second base
for `loadFrom` to merge wholesale. -/
theorem C7_counterexample :
    ((decodeLayersPhase (fun _ => 0) false 0 ⟨some cexB0, []⟩ [cexBA, cexBB]).base.map
        Layer.width = some 20)
    ∧ cexBA.ltype = "base" ∧ cexBA.width = 10 ∧ ¬((20 : ℚ) = 10) := by
  refine ⟨?_, rfl, rfl, by norm_num⟩
  simp +decide [decodeLayersPhase, baseMergeLoop, mergeHead, loadFromList, loadFromStep,
    loadBase, scaleOne, cexB0, cexBA, cexBB]

/-- Claim C7 witness: the amended merge theorem evaluated on the decoded
list `[cexBA, cexEmb]` against a live store holding only `cexB0`. -/
theorem C7_base_merge_witness :
    ((decodeLayersPhase (fun _ => 0) false 0 ⟨some cexB0, []⟩ [cexBA, cexEmb]).base
      = some { cexB0 with width := cexBA.width, height := cexBA.height, color := cexBA.color })
    ∧ ∀ l ∈ (decodeLayersPhase (fun _ => 0) false 0 ⟨some cexB0, []⟩
        [cexBA, cexEmb]).rest, l.ltype ≠ "base" :=
  ⟨(C7_base_merge (fun _ => 0) false 0 ⟨some cexB0, []⟩ cexB0 cexBA [cexEmb]
      rfl (by simp) rfl (by decide)).1,
    (C7_base_merge (fun _ => 0) false 0 ⟨some cexB0, []⟩ cexB0 cexBA [cexEmb]
      rfl (by simp) rfl (by decide)).2⟩

/-! ## Claim C5: the undo cursor invariant

The undo manager (lines 784-932) keeps `undoStack` (array of snapshots),
`undoIndex` (cursor, initially -1) and `maxUndoSteps` (initially 50).
Snapshots are abstract (`α`); `captureState`'s deep-value comparison
`hasStateChanged` is modelled by the boolean `changed` (the comparison is
only consulted when the cursor is in range — out of range it reports
"changed"). `updateMaxUndoSteps` receives `Number(input.value)`; the model
covers numeric inputs (a non-numeric input makes `maxUndoSteps` NaN, under
which both the guard and the capacity check are false, which also never
shrinks the stack). `isRestoringState` is false at operation granularity
because `restoreStateFromIndex` resets it before returning. -/

/-- Undo-manager state: `undoStack`, `undoIndex`, `maxUndoSteps`
(lines 19-21). -/
structure UndoState (α : Type) where
  undoStack : List α
  undoIndex : Int
  maxUndoSteps : Int
deriving DecidableEq

/-- The initial state: empty stack, cursor -1, cap 50. -/
def initUndo {α : Type} : UndoState α := ⟨[], -1, 50⟩

/-- `clearUndoHistory` (lines 784-787). -/
def clearUndoHistory {α : Type} (s : UndoState α) : UndoState α :=
  { s with undoStack := [], undoIndex := -1 }

/-- `captureState` (lines 818-854): skip when the state is unchanged
(`hasStateChanged` returns true whenever the cursor is out of range);
truncate redone-away entries when the cursor is not at the top; push a
snapshot; evict the oldest entry instead of advancing the cursor when the
cap is exceeded. -/
def captureState {α : Type} (changed : Bool) (snap : α) (s : UndoState α) : UndoState α :=
  if 0 ≤ s.undoIndex ∧ s.undoIndex < (s.undoStack.length : Int) ∧ changed = false then s
  else
    let stack1 := if s.undoIndex < (s.undoStack.length : Int) - 1 then
        s.undoStack.take (s.undoIndex + 1).toNat
      else s.undoStack
    let stack2 := stack1 ++ [snap]
    if s.maxUndoSteps < (stack2.length : Int) then
      { s with undoStack := stack2.drop 1 }
    else
      { s with undoStack := stack2, undoIndex := s.undoIndex + 1 }

/-- `undo` (lines 857-866): no-op at the earliest entry, else decrement the
cursor (the restore touches neither the stack nor the cursor). -/
def undoStep {α : Type} (s : UndoState α) : UndoState α :=
  if s.undoIndex ≤ 0 then s else { s with undoIndex := s.undoIndex - 1 }

/-- `redo` (lines 869-878): no-op at the latest entry, else increment the
cursor. -/
def redoStep {α : Type} (s : UndoState α) : UndoState α :=
  if (s.undoStack.length : Int) - 1 ≤ s.undoIndex then s
  else { s with undoIndex := s.undoIndex + 1 }

/-- `updateMaxUndoSteps` (lines 916-932): reject values outside 5..500;
otherwise set the cap and, if the stack is now too long, drop the excess
oldest entries and clamp the cursor with `Math.max(-1, …)`. -/
def updateMaxUndoSteps {α : Type} (v : Int) (s : UndoState α) : UndoState α :=
  if v < 5 ∨ 500 < v then s
  else
    let s1 := { s with maxUndoSteps := v }
    if v < (s1.undoStack.length : Int) then
      let excess := (s1.undoStack.length : Int) - v
      { s1 with undoStack := s1.undoStack.drop excess.toNat,
                undoIndex := max (-1) (s1.undoIndex - excess) }
    else s1

/-- One undo-manager operation. -/
inductive UndoOp (α : Type) where
  | capture (changed : Bool) (snap : α)
  | undo
  | redo
  | clear
  | setMax (v : Int)
deriving DecidableEq

/-- Apply one operation. -/
def undoOpStep {α : Type} : UndoOp α → UndoState α → UndoState α
  | UndoOp.capture changed snap => captureState changed snap
  | UndoOp.undo => undoStep
  | UndoOp.redo => redoStep
  | UndoOp.clear => clearUndoHistory
  | UndoOp.setMax v => updateMaxUndoSteps v

/-- Run a sequence of operations from a state. -/
def runUndoOps {α : Type} (ops : List (UndoOp α)) (s : UndoState α) : UndoState α :=
  ops.foldl (fun s op => undoOpStep op s) s

/-- Inductive invariant: the cursor is -1 or a valid index, and the cap is
positive (it starts at 50 and is only ever set within 5..500). -/
def undoInvP {α : Type} (s : UndoState α) : Prop :=
  -1 ≤ s.undoIndex ∧ s.undoIndex < (s.undoStack.length : Int) ∧ 1 ≤ s.maxUndoSteps

theorem captureState_inv {α : Type} (changed : Bool) (snap : α) (s : UndoState α)
    (h : undoInvP s) : undoInvP (captureState changed snap s) := by
  obtain ⟨h1, h2, h3⟩ := h
  unfold undoInvP captureState
  split
  · exact ⟨h1, h2, h3⟩
  · split <;> (dsimp only; split) <;> refine ⟨?_, ?_, ?_⟩ <;>
      (try dsimp only
       try simp only [List.length_drop, List.length_append, List.length_singleton,
         List.length_take] at *
       omega)

theorem undoOpStep_inv {α : Type} (op : UndoOp α) (s : UndoState α)
    (h : undoInvP s) : undoInvP (undoOpStep op s) := by
  obtain ⟨h1, h2, h3⟩ := h
  cases op with
  | capture changed snap => exact captureState_inv changed snap s ⟨h1, h2, h3⟩
  | undo =>
    show undoInvP (undoStep s)
    unfold undoInvP undoStep
    split
    · exact ⟨h1, h2, h3⟩
    · exact ⟨by dsimp only; omega, by dsimp only; omega, h3⟩
  | redo =>
    show undoInvP (redoStep s)
    unfold undoInvP redoStep
    split
    · exact ⟨h1, h2, h3⟩
    · exact ⟨by dsimp only; omega, by dsimp only; omega, h3⟩
  | clear =>
    show undoInvP (clearUndoHistory s)
    unfold undoInvP clearUndoHistory
    exact ⟨by norm_num, by norm_num, h3⟩
  | setMax v =>
    show undoInvP (updateMaxUndoSteps v s)
    unfold undoInvP updateMaxUndoSteps
    split
    · exact ⟨h1, h2, h3⟩
    · dsimp only
      split <;> refine ⟨?_, ?_, ?_⟩ <;>
        (try dsimp only
         try simp only [List.length_drop] at *
         omega)

theorem runUndoOps_inv {α : Type} (ops : List (UndoOp α)) (s : UndoState α)
    (h : undoInvP s) : undoInvP (runUndoOps ops s) := by
  induction ops generalizing s with
  | nil => exact h
  | cons op rest ih => exact ih (undoOpStep op s) (undoOpStep_inv op s h)

/-- Claim C5, counterexample to the claim as stated: capture ten states,
undo eight times (cursor 1), then lower the cap to 5. The trim drops five
entries and clamps the cursor to `max(-1, 1 - 5) = -1`, so the cursor is -1
while five entries remain on the stack. -/
def cexUndoOps : List (UndoOp Nat) :=
  (List.range 10).map (fun i => UndoOp.capture true i)
    ++ List.replicate 8 UndoOp.undo ++ [UndoOp.setMax 5]

theorem C5_counterexample :
    (runUndoOps cexUndoOps initUndo).undoStack.length = 5
    ∧ (runUndoOps cexUndoOps initUndo).undoIndex = -1 := by
  constructor
  · decide
  · decide

/-- Claim C5 (amended): after every sequence of undo-manager operations
from the initial state, the cursor satisfies
`-1 ≤ undoIndex < undoStack.length` (a valid index or -1), and it is -1
whenever the stack is empty; but after `updateMaxUndoSteps` trims more
entries than the cursor position it can be -1 with a non-empty stack. -/
theorem C5_cursor_invariant {α : Type} (ops : List (UndoOp α)) :
    -1 ≤ (runUndoOps ops initUndo).undoIndex
    ∧ (runUndoOps ops initUndo).undoIndex
        < ((runUndoOps ops initUndo).undoStack.length : Int)
    ∧ ((runUndoOps ops initUndo).undoStack.length = 0 →
        (runUndoOps ops initUndo).undoIndex = -1) := by
  have h := runUndoOps_inv ops initUndo ⟨by norm_num [initUndo], by norm_num [initUndo],
    by norm_num [initUndo]⟩
  exact ⟨h.1, h.2.1, fun hlen => by have := h.1; have := h.2.1; omega⟩

/-- Claim C5 witness: the amended invariant evaluated after the
counterexample operation sequence and after a clear. -/
theorem C5_cursor_invariant_witness :
    (-1 ≤ (runUndoOps cexUndoOps initUndo).undoIndex
      ∧ (runUndoOps cexUndoOps initUndo).undoIndex
          < ((runUndoOps cexUndoOps initUndo).undoStack.length : Int))
    ∧ (runUndoOps [UndoOp.clear (α := Nat)] initUndo).undoIndex = -1 :=
  ⟨⟨(C5_cursor_invariant cexUndoOps).1, (C5_cursor_invariant cexUndoOps).2.1⟩,
    (C5_cursor_invariant [UndoOp.clear]).2.2 (by decide)⟩

/-! ## Claim C4: undo k times then redo k times restores the live store

`undo`/`redo` (lines 857-878) move the cursor and call
`restoreStateFromIndex` (lines 881-913), which replaces `aLayers` with a
deep clone of the snapshot's layer map and rebuilds the DOM layer list via
`rebuildLayerListUI` (lines 938-1008): the new order is the snapshot's
`layerOrder` (or, if that is empty, the current DOM order filtered to
existing layers), filtered again to identifiers present in the restored
`aLayers`. The subsequent `drawProject()` call's effect on layer records is
the `drawLayerUpdate` default-filling covered by claim C10 and is the
identity on snapshots captured after a draw. Snapshot layer values are
abstract (`V`); deep cloning is value identity. -/

/-- One undo snapshot: the deep-copied layer map and the captured layer
order (`UndoStateEntry` without the label). -/
structure Snap (V : Type) where
  layers : List (String × V)
  order : List String
deriving DecidableEq

/-- The live document alongside the undo history: the snapshot stack, the
cursor, and the live `aLayers`-plus-DOM-order. -/
structure LiveUndoState (V : Type) where
  stack : List (Snap V)
  idx : Int
  live : Snap V
deriving DecidableEq

/-- JS truthiness of `aLayers[layerId]`: the identifier maps to a layer
object. -/
def keyMem {V : Type} (layers : List (String × V)) (id : String) : Bool :=
  (layers.lookup id).isSome

/-- The layer order produced by `rebuildLayerListUI` (lines 938-1008) when
restoring `snap` while the DOM still shows `cur`: take the snapshot's order
(falling back to the current DOM order filtered to restored layers when the
snapshot's order is empty) and keep the identifiers present in the restored
layer map. -/
def restoreOrder {V : Type} (snap : Snap V) (cur : List String) : List String :=
  let base := if snap.order.length = 0 then cur.filter (fun id => keyMem snap.layers id)
    else snap.order
  base.filter (fun id => keyMem snap.layers id)

/-- `restoreStateFromIndex(i)` (lines 881-913): out-of-range indices return
without touching the store; otherwise `aLayers` becomes a clone of the
snapshot's layers and the DOM order is rebuilt. -/
def restoreAt {V : Type} (s : LiveUndoState V) (i : Int) : Snap V :=
  if i < 0 ∨ (s.stack.length : Int) ≤ i then s.live
  else
    match s.stack[i.toNat]? with
    | none => s.live
    | some snap => ⟨snap.layers, restoreOrder snap s.live.order⟩

/-- `undo` (lines 857-866): no-op when the cursor is at the earliest entry,
else decrement the cursor and restore that snapshot. -/
def undoLive {V : Type} (s : LiveUndoState V) : LiveUndoState V :=
  if s.idx ≤ 0 then s
  else { s with idx := s.idx - 1, live := restoreAt s (s.idx - 1) }

/-- `redo` (lines 869-878): no-op when the cursor is at the latest entry,
else increment the cursor and restore that snapshot. -/
def redoLive {V : Type} (s : LiveUndoState V) : LiveUndoState V :=
  if (s.stack.length : Int) - 1 ≤ s.idx then s
  else { s with idx := s.idx + 1, live := restoreAt s (s.idx + 1) }

/-- `undo` iterated `k` times. -/
def undoIter {V : Type} : Nat → LiveUndoState V → LiveUndoState V
  | 0, s => s
  | k + 1, s => undoIter k (undoLive s)

/-- `redo` iterated `k` times. -/
def redoIter {V : Type} : Nat → LiveUndoState V → LiveUndoState V
  | 0, s => s
  | k + 1, s => redoIter k (redoLive s)

theorem undoIter_stack {V : Type} (k : Nat) (s : LiveUndoState V) :
    (undoIter k s).stack = s.stack := by
  induction k generalizing s with
  | zero => rfl
  | succ k ih =>
    rw [undoIter, ih]
    unfold undoLive
    split <;> rfl

theorem undoIter_idx {V : Type} (k : Nat) (s : LiveUndoState V) (h0 : 0 ≤ s.idx) :
    0 ≤ (undoIter k s).idx ∧ (undoIter k s).idx ≤ s.idx
    ∧ s.idx - k ≤ (undoIter k s).idx := by
  induction k generalizing s with
  | zero => exact ⟨h0, le_rfl, by show s.idx - ((0 : Nat) : Int) ≤ s.idx; omega⟩
  | succ k ih =>
    rw [undoIter]
    by_cases h : s.idx ≤ 0
    · have hu : undoLive s = s := by unfold undoLive; rw [if_pos h]
      rw [hu]
      have := ih s h0
      exact ⟨this.1, this.2.1, by omega⟩
    · have hu : (undoLive s).idx = s.idx - 1 := by
        unfold undoLive
        rw [if_neg h]
      have := ih (undoLive s) (by omega)
      rw [hu] at this
      exact ⟨this.1, by omega, by omega⟩

theorem undoIter_noop {V : Type} (k : Nat) (s : LiveUndoState V) (h : s.idx ≤ 0) :
    undoIter k s = s := by
  induction k with
  | zero => rfl
  | succ k ih =>
    rw [undoIter]
    have hu : undoLive s = s := by unfold undoLive; rw [if_pos h]
    rw [hu, ih]

theorem restoreOrder_wf {V : Type} (snap : Snap V) (cur : List String)
    (hWF : ∀ id ∈ snap.order, keyMem snap.layers id = true)
    (hWF2 : snap.order = [] → snap.layers = []) :
    restoreOrder snap cur = snap.order := by
  unfold restoreOrder
  by_cases h : snap.order.length = 0
  · have ho : snap.order = [] := List.eq_nil_of_length_eq_zero h
    have hl : snap.layers = [] := hWF2 ho
    rw [if_pos h, ho, hl]
    simp [keyMem]
  · rw [if_neg h]
    exact List.filter_eq_self.mpr hWF

/-- Restoring the top snapshot from any DOM order reproduces the snapshot
exactly, for well-formed captured snapshots. -/
theorem restoreAt_top {V : Type} (s : LiveUndoState V) (n : Nat) (snapN : Snap V)
    (hn : s.stack.length = n) (h0 : 0 < n) (htop : s.stack[n - 1]? = some snapN)
    (hWF : ∀ id ∈ snapN.order, keyMem snapN.layers id = true)
    (hWF2 : snapN.order = [] → snapN.layers = []) :
    restoreAt s ((n : Int) - 1) = snapN := by
  unfold restoreAt
  rw [if_neg (by omega)]
  have hidx : ((n : Int) - 1).toNat = n - 1 := by omega
  rw [hidx, htop]
  show Snap.mk snapN.layers (restoreOrder snapN s.live.order) = snapN
  rw [restoreOrder_wf snapN s.live.order hWF hWF2]

theorem redoIter_reach {V : Type} (s0 : LiveUndoState V) (n : Nat) (snapN : Snap V)
    (h0 : 0 < n) (htop : s0.stack[n - 1]? = some snapN)
    (hWF : ∀ id ∈ snapN.order, keyMem snapN.layers id = true)
    (hWF2 : snapN.order = [] → snapN.layers = []) :
    ∀ (k : Nat) (s : LiveUndoState V), s.stack = s0.stack → s.stack.length = n →
    0 ≤ s.idx → s.idx ≤ (n : Int) - 1 → (n : Int) - 1 - s.idx ≤ k →
    (s.idx = (n : Int) - 1 → s.live = snapN) →
    (redoIter k s).live = snapN ∧ (redoIter k s).idx = (n : Int) - 1 := by
  intro k
  induction k with
  | zero =>
    intro s hstk hlen hge hle hcnt htopLive
    have heq : s.idx = (n : Int) - 1 := by omega
    exact ⟨htopLive heq, heq⟩
  | succ k ih =>
    intro s hstk hlen hge hle hcnt htopLive
    rw [redoIter]
    by_cases h : (s.stack.length : Int) - 1 ≤ s.idx
    · have hr : redoLive s = s := by unfold redoLive; rw [if_pos h]
      rw [hr]
      exact ih s hstk hlen hge hle (by rw [hlen] at h; omega) htopLive
    · have hr : redoLive s
          = { s with idx := s.idx + 1, live := restoreAt s (s.idx + 1) } := by
        unfold redoLive
        rw [if_neg h]
      rw [hr]
      refine ih _ hstk hlen (by dsimp only; omega) (by dsimp only; rw [hlen] at h; omega)
        (by dsimp only; omega) ?_
      intro heq
      dsimp only at heq ⊢
      rw [heq]
      have : s.stack[n - 1]? = some snapN := by rw [hstk]; exact htop
      exact restoreAt_top s n snapN (hstk ▸ hlen) h0 this hWF hWF2

/-- Claim C4: for a history of `n` captured states with the cursor at the
newest entry and the live store equal to that snapshot (which is what
`captureState` guarantees), performing `undo` `k` times followed by `redo`
`k` times (`k ≤ n`) restores the live layer store — `aLayers` and the layer
order — to deep-value equality with its state before the first undo. -/
theorem C4_undo_redo_symmetry {V : Type} (s : LiveUndoState V) (n k : Nat)
    (snapN : Snap V)
    (hn : s.stack.length = n) (h0 : 0 < n) (hidx : s.idx = (n : Int) - 1)
    (htop : s.stack[n - 1]? = some snapN) (hlive : s.live = snapN)
    (hWF : ∀ id ∈ snapN.order, keyMem snapN.layers id = true)
    (hWF2 : snapN.order = [] → snapN.layers = [])
    (hk : k ≤ n) :
    (redoIter k (undoIter k s)).live = s.live
    ∧ (redoIter k (undoIter k s)).idx = s.idx := by
  rcases Nat.eq_zero_or_pos k with hk0 | hkpos
  · subst hk0
    exact ⟨rfl, rfl⟩
  · by_cases hidx0 : s.idx ≤ 0
    · have hu := undoIter_noop k s hidx0
      rw [hu]
      obtain ⟨k2, rfl⟩ : ∃ k2, k = k2 + 1 := ⟨k - 1, by omega⟩
      rw [redoIter]
      have hr : redoLive s = s := by
        unfold redoLive
        rw [if_pos (by omega)]
      rw [hr]
      have := redoIter_reach s n snapN h0 htop hWF hWF2 k2 s rfl hn (by omega)
        (by omega) (by omega) (fun _ => hlive)
      rw [hlive, hidx]
      exact this
    · have hstk := undoIter_stack k s
      have hbounds := undoIter_idx k s (by omega)
      have := redoIter_reach s n snapN h0 htop hWF hWF2 k (undoIter k s) hstk
        (by rw [hstk]; exact hn) hbounds.1 (by omega) (by omega) ?_
      · rw [hlive, hidx]
        exact this
      · intro heq
        have hlt : s.idx ≤ 0 ∨ (undoIter k s).idx < s.idx := by
          rcases Nat.eq_zero_or_pos k with h | h
          · omega
          · right
            by_contra hc
            obtain ⟨k2, rfl⟩ : ∃ k2, k = k2 + 1 := ⟨k - 1, by omega⟩
            rw [undoIter] at heq hc
            have hu : (undoLive s).idx = s.idx - 1 := by
              unfold undoLive
              rw [if_neg (by omega)]
            have hb2 := undoIter_idx k2 (undoLive s) (by rw [hu]; omega)
            omega
        rcases hlt with h | h
        · omega
        · omega

/-- Concrete snapshots for the claim C4 witness. -/
def c4Snap0 : Snap Nat := ⟨[("dragdropdiv0", 0)], ["dragdropdiv0"]⟩

/-- Second concrete snapshot. -/
def c4Snap1 : Snap Nat := ⟨[("dragdropdiv0", 1), ("dragdropdiv1", 2)],
  ["dragdropdiv0", "dragdropdiv1"]⟩

/-- Claim C4 witness: one undo followed by one redo on a two-entry history
returns the live store to the newest snapshot. -/
theorem C4_undo_redo_symmetry_witness :
    (redoIter 1 (undoIter 1 (⟨[c4Snap0, c4Snap1], 1, c4Snap1⟩ : LiveUndoState Nat))).live
      = c4Snap1
    ∧ (redoIter 1 (undoIter 1 (⟨[c4Snap0, c4Snap1], 1, c4Snap1⟩ : LiveUndoState Nat))).idx
      = 1 :=
  C4_undo_redo_symmetry ⟨[c4Snap0, c4Snap1], 1, c4Snap1⟩ 2 1 c4Snap1
    rfl (by omega) rfl rfl rfl (by decide) (by decide) (by omega)

/-! ## Claim C3: the rectangle packer `fitImages` (src/imageFit.js)

JS numbers are modelled as `ℚ` (the routine uses only +, -, *, /, max,
comparisons, `Math.sqrt`+`Math.ceil` for the initial estimate). A space's
height can be `Infinity` (the initial space), modelled as `none` in an
`Option ℚ`; every comparison against `Infinity` is spelled out the way the
JS comparison behaves (`x > Infinity` is false, `x === Infinity` is false
for finite `x`, `Infinity - x` is `Infinity`). -/

/-- One input rectangle: `boxes[i] = {w: imgList[i].width, h: imgList[i].height}`. -/
structure PBox where
  w : ℚ
  h : ℚ
deriving DecidableEq

/-- One free space `{x, y, w, h}`; `h = none` is `Infinity`. -/
structure Space where
  x : ℚ
  y : ℚ
  w : ℚ
  h : Option ℚ
deriving DecidableEq

/-- `box.h > space.h` is false when the space height is `Infinity`; the fit
test is its negation. -/
def hFitsB (bh : ℚ) (sh : Option ℚ) : Bool :=
  match sh with
  | none => true
  | some hv => decide (bh ≤ hv)

/-- `box.h === space.h`: false against `Infinity`. -/
def hEqB (bh : ℚ) (sh : Option ℚ) : Bool :=
  match sh with
  | none => false
  | some hv => decide (bh = hv)

/-- `space.h -= box.h`: `Infinity` minus a finite number stays `Infinity`. -/
def hSubO (sh : Option ℚ) (bh : ℚ) : Option ℚ := sh.map (fun hv => hv - bh)

/-- The fit test of the inner loop (line 240):
`if (box.w > space.w || box.h > space.h) continue;` negated. -/
def fitsB (b : PBox) (s : Space) : Bool :=
  decide (b.w ≤ s.w) && hFitsB b.h s.h

/-- The backwards scan of the space list (line 231,
`for (let i = spaces.length - 1; i >= 0; i--)`): index of the last
(hindmost) space the box fits into. -/
def findFit (spaces : List Space) (b : PBox) : Option Nat :=
  match spaces with
  | [] => none
  | s :: rest =>
    match findFit rest b with
    | some j => some (j + 1)
    | none => if fitsB b s then some 0 else none

/-- Swap-with-last-and-pop removal of index `i` (lines 308-309):
`let last = spaces.pop(); if (i < spaces.length) { spaces[i] = last; }`. -/
def removeSwap (spaces : List Space) (i : Nat) : List Space :=
  match spaces.getLast? with
  | none => spaces
  | some last =>
    let popped := spaces.dropLast
    if i < popped.length then popped.set i last else popped

/-- Mutable state of the packing loop: the free-space list, the output
placements (`pos`, parallel to the input), and the running container
dimensions. -/
structure PackState where
  spaces : List Space
  pos : List (Option (ℚ × ℚ))
  width : ℚ
  height : ℚ

/-- One iteration of the main packing loop (lines 214-353) for the box with
original index `idx`: find a space scanning backwards, place the box at its
top-left corner, update the running dimensions, and split or shrink the
consumed space (cases 1-4 of lines 304-350). When no space fits, the box is
left unplaced (the inner loop simply falls through in the source; the
placement invariant proves this never happens). -/
def placeBox (st : PackState) (b : PBox) (idx : Nat) : PackState :=
  match findFit st.spaces b with
  | none => st
  | some i =>
    match st.spaces[i]? with
    | none => st
    | some s =>
      let pos2 := st.pos.set idx (some (s.x, s.y))
      let height2 := max st.height (s.y + b.h)
      let width2 := max st.width (s.x + b.w)
      let spaces2 :=
        if b.w = s.w ∧ hEqB b.h s.h then removeSwap st.spaces i
        else if hEqB b.h s.h then
          st.spaces.set i { s with x := s.x + b.w, w := s.w - b.w }
        else if b.w = s.w then
          st.spaces.set i { s with y := s.y + b.h, h := hSubO s.h b.h }
        else
          (st.spaces.set i { s with y := s.y + b.h, h := hSubO s.h b.h })
            ++ [⟨s.x + b.w, s.y, s.w - b.w, some b.h⟩]
      ⟨spaces2, pos2, width2, height2⟩

/-- `Math.ceil(Math.sqrt(q))` for a rational `q ≥ 0`: the least natural
whose square is at least `q` (for `q < 0` the JS expression is NaN; the
packer only reaches it with a non-negative area under the claim's
hypotheses). -/
def jsCeilSqrt (q : ℚ) : Nat :=
  if q ≤ 0 then 0
  else
    let s := Nat.sqrt (Int.toNat ⌈q⌉)
    if q ≤ (s : ℚ) ^ 2 then s else s + 1

/-- The sort of the index array by box height, descending (line 154):
`order.sort(function (a, b) { return boxes[b].h - boxes[a].h; })`. -/
def packOrder (boxes : List PBox) : List Nat :=
  (List.range boxes.length).mergeSort
    (fun a b => decide ((boxes.getD b ⟨0, 0⟩).h ≤ (boxes.getD a ⟨0, 0⟩).h))

/-- Result record `{container: {width, height}, pos}`. -/
structure PackResult where
  containerWidth : ℚ
  containerHeight : ℚ
  pos : List (Option (ℚ × ℚ))

/-- `fitImages(imgList, minWidth)` (lines 103-372): copy the dimensions,
accumulate the total area and maximum width, sort indices by height
descending, start from one full-width space of infinite height at the
origin, place every box in sorted order, and return the accumulated
container dimensions with the per-index placements. -/
def fitImages (imgList : List PBox) (minWidth : ℚ) : PackResult :=
  let boxes := imgList
  let area := boxes.foldl (fun a b => a + b.w * b.h) 0
  let maxWidth := boxes.foldl (fun m b => max m b.w) 0
  let order := packOrder boxes
  let startWidth := max (max ((jsCeilSqrt (area / (9 / 10)) : ℚ)) maxWidth) minWidth
  let init : PackState := ⟨[⟨0, 0, startWidth, none⟩],
    List.replicate boxes.length none, 0, 0⟩
  let final := order.foldl (fun st idx => placeBox st (boxes.getD idx ⟨0, 0⟩) idx) init
  ⟨final.width, final.height, final.pos⟩

/-! ### Regions and disjointness -/

/-- Membership in the half-open rectangle `[x, x+w) × [y, y+h)`. -/
def rMem (x y w h : ℚ) (p : ℚ × ℚ) : Prop :=
  x ≤ p.1 ∧ p.1 < x + w ∧ y ≤ p.2 ∧ p.2 < y + h

/-- Membership in a space's region (upward-unbounded when `h = none`). -/
def spMem (s : Space) (p : ℚ × ℚ) : Prop :=
  s.x ≤ p.1 ∧ p.1 < s.x + s.w ∧ s.y ≤ p.2 ∧
    (match s.h with
     | none => True
     | some hv => p.2 < s.y + hv)

/-- Disjointness of two space regions. -/
def spDisj (s1 s2 : Space) : Prop := ∀ p : ℚ × ℚ, ¬(spMem s1 p ∧ spMem s2 p)

theorem spDisj_symm : Symmetric spDisj := by
  intro s1 s2 h p hp
  exact h p ⟨hp.2, hp.1⟩

/-! ### `findFit` basics -/

theorem findFit_some {spaces : List Space} {b : PBox} {i : Nat}
    (h : findFit spaces b = some i) :
    i < spaces.length ∧ ∃ s, spaces[i]? = some s ∧ fitsB b s = true := by
  induction spaces generalizing i with
  | nil => simp [findFit] at h
  | cons s rest ih =>
    rw [findFit] at h
    cases hfr : findFit rest b with
    | some j =>
      rw [hfr] at h
      injection h with h
      subst h
      obtain ⟨hlt, s2, hs2, hfits⟩ := ih hfr
      refine ⟨by simp; omega, s2, ?_, hfits⟩
      rw [List.getElem?_cons_succ]
      exact hs2
    | none =>
      rw [hfr] at h
      by_cases hf : fitsB b s
      · rw [if_pos hf] at h
        injection h with h
        subst h
        exact ⟨by simp, s, by simp, hf⟩
      · rw [if_neg hf] at h
        exact absurd h (by simp)

theorem findFit_none {spaces : List Space} {b : PBox}
    (h : findFit spaces b = none) : ∀ s ∈ spaces, fitsB b s = false := by
  induction spaces with
  | nil => simp
  | cons s rest ih =>
    rw [findFit] at h
    cases hfr : findFit rest b with
    | some j => rw [hfr] at h; exact absurd h (by simp)
    | none =>
      rw [hfr] at h
      by_cases hf : fitsB b s
      · rw [if_pos hf] at h
        exact absurd h (by simp)
      · rw [if_neg hf] at h
        intro s2 hs2
        rcases List.mem_cons.mp hs2 with h1 | h1
        · subst h1
          simpa using hf
        · exact ih hfr s2 h1

/-! ### List surgery lemmas for the space list -/

theorem set_perm_eraseIdx (l : List Space) (i : Nat) (v : Space) (h : i < l.length) :
    List.Perm (l.set i v) (l.eraseIdx i ++ [v]) := by
  rw [List.set_eq_take_cons_drop v h, List.eraseIdx_eq_take_drop_succ]
  refine List.Perm.trans List.perm_middle ?_
  exact (List.perm_append_singleton _ _).symm

theorem removeSwap_perm (l : List Space) (i : Nat) (h : i < l.length) :
    List.Perm (removeSwap l i) (l.eraseIdx i) := by
  have hne : l ≠ [] := by
    intro he
    rw [he] at h
    simp at h
  unfold removeSwap
  rw [List.getLast?_eq_getLast l hne]
  simp only
  by_cases hi : i < l.dropLast.length
  · rw [if_pos hi]
    have hdec : l = l.dropLast ++ [l.getLast hne] := (List.dropLast_append_getLast hne).symm
    have he : l.eraseIdx i = l.dropLast.eraseIdx i ++ [l.getLast hne] := by
      conv_lhs => rw [hdec]
      exact List.eraseIdx_append_of_lt_length hi _
    rw [he]
    exact set_perm_eraseIdx _ _ _ hi
  · rw [if_neg hi]
    have hlen : l.dropLast.length = l.length - 1 := List.length_dropLast l
    have hieq : i = l.length - 1 := by omega
    have herase : l.eraseIdx i = l.dropLast := by
      rw [List.eraseIdx_eq_take_drop_succ, hieq]
      have hdrop : l.drop (l.length - 1 + 1) = [] := by
        apply List.drop_eq_nil_of_le
        omega
      rw [hdrop, List.append_nil, List.dropLast_eq_take]
    rw [herase]

theorem pairwise_rel_eraseIdx {R : Space → Space → Prop} (hsym : Symmetric R)
    {l : List Space} (hp : List.Pairwise R l) {i : Nat} (hi : i < l.length) :
    ∀ a ∈ l.eraseIdx i, R l[i] a := by
  intro a ha
  rw [List.mem_eraseIdx_iff_getElem] at ha
  obtain ⟨j, hj, hji, hja⟩ := ha
  rw [List.pairwise_iff_getElem] at hp
  rcases lt_trichotomy j i with hlt | heq | hgt
  · exact hja ▸ hsym (hp j i hj hi hlt)
  · exact absurd heq hji
  · exact hja ▸ hp i j hi hj hgt

/-! ### Geometry of the split cases -/

/-- Disjointness of a space region and a placed-box region. -/
def spBoxDisj (s : Space) (x y w h : ℚ) : Prop :=
  ∀ p : ℚ × ℚ, ¬(spMem s p ∧ rMem x y w h p)

/-- Disjointness of two placed-box regions. -/
def boxBoxDisj (x1 y1 w1 h1 x2 y2 w2 h2 : ℚ) : Prop :=
  ∀ p : ℚ × ℚ, ¬(rMem x1 y1 w1 h1 p ∧ rMem x2 y2 w2 h2 p)

theorem placed_sub_space (s : Space) (b : PBox) (hfit : fitsB b s = true) :
    ∀ p, rMem s.x s.y b.w b.h p → spMem s p := by
  intro p hp
  obtain ⟨h1, h2, h3, h4⟩ := hp
  have hw : b.w ≤ s.w := by
    unfold fitsB at hfit
    simp only [Bool.and_eq_true, decide_eq_true_eq] at hfit
    exact hfit.1
  refine ⟨h1, by linarith, h3, ?_⟩
  match hs : s.h with
  | none => trivial
  | some hv =>
    unfold fitsB hFitsB at hfit
    rw [hs] at hfit
    simp only [Bool.and_eq_true, decide_eq_true_eq] at hfit
    have := hfit.2
    linarith

theorem right2_sub_space (s : Space) (b : PBox) (hw : 0 ≤ b.w) :
    ∀ p, spMem (⟨s.x + b.w, s.y, s.w - b.w, s.h⟩ : Space) p → spMem s p := by
  intro p hp
  obtain ⟨h1, h2, h3, h4⟩ := hp
  dsimp only at h1 h2 h3 h4
  exact ⟨by linarith, by linarith, h3, h4⟩

theorem right4_sub_space (s : Space) (b : PBox) (hfit : fitsB b s = true)
    (hw : 0 ≤ b.w) :
    ∀ p, spMem (⟨s.x + b.w, s.y, s.w - b.w, some b.h⟩ : Space) p → spMem s p := by
  intro p hp
  obtain ⟨h1, h2, h3, h4⟩ := hp
  dsimp only at h1 h2 h3 h4
  refine ⟨by linarith, by linarith, h3, ?_⟩
  match hs : s.h with
  | none => trivial
  | some hv =>
    unfold fitsB hFitsB at hfit
    rw [hs] at hfit
    simp only [Bool.and_eq_true, decide_eq_true_eq] at hfit
    have h5 : p.2 < s.y + b.h := h4
    have := hfit.2
    linarith

theorem bottom_sub_space (s : Space) (b : PBox) (hh : 0 ≤ b.h) :
    ∀ p, spMem (⟨s.x, s.y + b.h, s.w, hSubO s.h b.h⟩ : Space) p → spMem s p := by
  intro p hp
  obtain ⟨h1, h2, h3, h4⟩ := hp
  dsimp only at h1 h2 h3 h4
  refine ⟨h1, h2, by linarith, ?_⟩
  match hs : s.h with
  | none => trivial
  | some hv =>
    rw [hs] at h4
    have h5 : p.2 < s.y + b.h + (hv - b.h) := h4
    linarith

theorem right2_disj_placed (s : Space) (b : PBox) :
    spBoxDisj (⟨s.x + b.w, s.y, s.w - b.w, s.h⟩ : Space) s.x s.y b.w b.h := by
  intro p hp
  obtain ⟨⟨h1, _, _, _⟩, ⟨_, h2, _, _⟩⟩ := hp
  dsimp only at h1 h2
  linarith

theorem right4_disj_placed (s : Space) (b : PBox) :
    spBoxDisj (⟨s.x + b.w, s.y, s.w - b.w, some b.h⟩ : Space) s.x s.y b.w b.h := by
  intro p hp
  obtain ⟨⟨h1, _, _, _⟩, ⟨_, h2, _, _⟩⟩ := hp
  dsimp only at h1 h2
  linarith

theorem bottom_disj_placed (s : Space) (b : PBox) :
    spBoxDisj (⟨s.x, s.y + b.h, s.w, hSubO s.h b.h⟩ : Space) s.x s.y b.w b.h := by
  intro p hp
  obtain ⟨⟨_, _, h1, _⟩, ⟨_, _, _, h2⟩⟩ := hp
  dsimp only at h1 h2
  linarith

theorem bottom_disj_right4 (s : Space) (b : PBox) :
    spDisj (⟨s.x, s.y + b.h, s.w, hSubO s.h b.h⟩ : Space)
      (⟨s.x + b.w, s.y, s.w - b.w, some b.h⟩ : Space) := by
  intro p hp
  obtain ⟨⟨_, _, h1, _⟩, ⟨_, _, _, h2⟩⟩ := hp
  dsimp only at h1 h2
  have h3 : p.2 < s.y + b.h := h2
  linarith


/-! ### The packing-loop invariant -/

/-- `boxes[i]` with the JS out-of-bounds default. -/
def bAt (boxes : List PBox) (i : Nat) : PBox := boxes.getD i ⟨0, 0⟩

/-- Index `i` has received a placement in `pos`. -/
def placedAt (st : PackState) (i : Nat) : Prop := ∃ p, st.pos[i]? = some (some p)

/-- Invariant of the packing loop: the output list keeps its length; every
infinite-height space spans the full starting width; an infinite-height space
is always available (so any box of width at most `startW` can be placed); the
free spaces are pairwise disjoint; every free space is disjoint from every
placed box; placed boxes are pairwise disjoint; and the running container
dimensions bound every placed box's extent. -/
def PackInv (boxes : List PBox) (startW : ℚ) (st : PackState) : Prop :=
  st.pos.length = boxes.length
  ∧ (∀ s ∈ st.spaces, s.h = none → s.w = startW)
  ∧ (∃ s ∈ st.spaces, s.h = none)
  ∧ List.Pairwise spDisj st.spaces
  ∧ (∀ s ∈ st.spaces, ∀ i p, st.pos[i]? = some (some p) →
      spBoxDisj s p.1 p.2 (bAt boxes i).w (bAt boxes i).h)
  ∧ (∀ i j p q, i ≠ j → st.pos[i]? = some (some p) → st.pos[j]? = some (some q) →
      boxBoxDisj p.1 p.2 (bAt boxes i).w (bAt boxes i).h
        q.1 q.2 (bAt boxes j).w (bAt boxes j).h)
  ∧ (∀ i p, st.pos[i]? = some (some p) →
      p.1 + (bAt boxes i).w ≤ st.width ∧ p.2 + (bAt boxes i).h ≤ st.height)

theorem placeBox_none {st : PackState} {b : PBox} (idx : Nat)
    (h : findFit st.spaces b = none) : placeBox st b idx = st := by
  unfold placeBox
  rw [h]

theorem placeBox_eq (st : PackState) (b : PBox) (idx i : Nat) (s : Space)
    (hff : findFit st.spaces b = some i) (hsi : st.spaces[i]? = some s) :
    placeBox st b idx =
      ⟨(if b.w = s.w ∧ hEqB b.h s.h then removeSwap st.spaces i
        else if hEqB b.h s.h then st.spaces.set i ⟨s.x + b.w, s.y, s.w - b.w, s.h⟩
        else if b.w = s.w then st.spaces.set i ⟨s.x, s.y + b.h, s.w, hSubO s.h b.h⟩
        else (st.spaces.set i ⟨s.x, s.y + b.h, s.w, hSubO s.h b.h⟩)
          ++ [⟨s.x + b.w, s.y, s.w - b.w, some b.h⟩]),
       st.pos.set idx (some (s.x, s.y)),
       max st.width (s.x + b.w), max st.height (s.y + b.h)⟩ := by
  simp only [placeBox, hff, hsi]

/-- Administrative core of the preservation proof: after placing box `b` in
space `s` (found at index `i`), the new space list is a permutation of the
old list without `s` plus a list of replacement pieces; whenever the pieces
lie inside `s`, are pairwise disjoint, avoid the placed box, inherit the
infinite height (with full width) when `s` was infinite, the invariant
carries over to the updated state. -/
theorem step_inv (boxes : List PBox) (startW : ℚ) (st : PackState) (b : PBox)
    (idx i : Nat) (s : Space) (pieces : List Space) (spaces2 : List Space)
    (hb : b = bAt boxes idx) (hidx : idx < boxes.length)
    (hsi : st.spaces[i]? = some s) (hfit : fitsB b s = true)
    (hinv : PackInv boxes startW st)
    (hperm : List.Perm spaces2 (st.spaces.eraseIdx i ++ pieces))
    (hsub : ∀ n ∈ pieces, ∀ p, spMem n p → spMem s p)
    (hpw2 : List.Pairwise spDisj pieces)
    (hdp : ∀ n ∈ pieces, spBoxDisj n s.x s.y b.w b.h)
    (hinfp : s.h = none → ∃ n ∈ pieces, n.h = none)
    (hwp : ∀ n ∈ pieces, n.h = none → s.h = none ∧ n.w = s.w) :
    PackInv boxes startW
      ⟨spaces2, st.pos.set idx (some (s.x, s.y)),
        max st.width (s.x + b.w), max st.height (s.y + b.h)⟩ := by
  obtain ⟨hlen, hwinf, ⟨sinf, hsinfm, hsinfh⟩, hpw, hsb, hbb, hext⟩ := hinv
  obtain ⟨hilt, hival⟩ := List.getElem?_eq_some.mp hsi
  have hsmem : s ∈ st.spaces := List.getElem?_mem hsi
  have herasemem : ∀ a ∈ st.spaces.eraseIdx i, a ∈ st.spaces := by
    intro a ha
    exact (List.eraseIdx_sublist st.spaces i).mem ha
  have herasedisj : ∀ a ∈ st.spaces.eraseIdx i, spDisj s a := by
    have h := pairwise_rel_eraseIdx spDisj_symm hpw hilt
    simpa only [hival] using h
  have hmem2 : ∀ a, a ∈ spaces2 ↔ a ∈ st.spaces.eraseIdx i ∨ a ∈ pieces := by
    intro a
    rw [hperm.mem_iff, List.mem_append]
  have hposlen : idx < st.pos.length := by
    rw [hlen]
    exact hidx
  have hset : (st.pos.set idx (some (s.x, s.y)))[idx]? = some (some (s.x, s.y)) :=
    List.getElem?_set_eq hposlen
  refine ⟨by simp [hlen], ?_, ?_, ?_, ?_, ?_, ?_⟩
  · -- infinite-height spaces keep the full starting width
    intro s2 hs2 hh2
    rcases (hmem2 s2).mp hs2 with he | hp2
    · exact hwinf s2 (herasemem s2 he) hh2
    · obtain ⟨hsh, hw2⟩ := hwp s2 hp2 hh2
      rw [hw2]
      exact hwinf s hsmem hsh
  · -- an infinite-height space survives
    by_cases hsh : s.h = none
    · obtain ⟨n, hn, hnh⟩ := hinfp hsh
      exact ⟨n, (hmem2 n).mpr (Or.inr hn), hnh⟩
    · refine ⟨sinf, (hmem2 sinf).mpr (Or.inl ?_), hsinfh⟩
      rw [List.mem_eraseIdx_iff_getElem]
      obtain ⟨j, hj, hja⟩ := List.mem_iff_getElem.mp hsinfm
      refine ⟨j, hj, ?_, hja⟩
      rintro rfl
      rw [hival] at hja
      rw [hja] at hsh
      exact hsh hsinfh
  · -- the free spaces stay pairwise disjoint
    rw [hperm.pairwise_iff fun hab => spDisj_symm hab]
    refine List.pairwise_append.mpr ⟨hpw.sublist (List.eraseIdx_sublist st.spaces i), hpw2, ?_⟩
    intro a ha n hn p hp
    exact herasedisj a ha p ⟨hsub n hn p hp.2, hp.1⟩
  · -- every free space avoids every placed box
    intro s2 hs2 i2 p2 hp2
    by_cases hi2 : i2 = idx
    · subst hi2
      have heq : some (some (s.x, s.y)) = some (some p2) := hset.symm.trans hp2
      simp only [Option.some.injEq] at heq
      subst heq
      rw [← hb]
      rcases (hmem2 s2).mp hs2 with he | hpc
      · intro p hp
        exact herasedisj s2 he p ⟨placed_sub_space s b hfit p hp.2, hp.1⟩
      · exact hdp s2 hpc
    · rw [List.getElem?_set_ne (fun h => hi2 h.symm)] at hp2
      rcases (hmem2 s2).mp hs2 with he | hpc
      · exact hsb s2 (herasemem s2 he) i2 p2 hp2
      · intro p hp
        exact hsb s hsmem i2 p2 hp2 p ⟨hsub s2 hpc p hp.1, hp.2⟩
  · -- placed boxes stay pairwise disjoint
    intro i2 j2 p2 q2 hne hp2 hq2
    by_cases hi2 : i2 = idx
    · subst hi2
      rw [List.getElem?_set_ne hne] at hq2
      have heq : some (some (s.x, s.y)) = some (some p2) := hset.symm.trans hp2
      simp only [Option.some.injEq] at heq
      subst heq
      rw [← hb]
      intro p hp
      exact hsb s hsmem j2 q2 hq2 p ⟨placed_sub_space s b hfit p hp.1, hp.2⟩
    · rw [List.getElem?_set_ne (fun h => hi2 h.symm)] at hp2
      by_cases hj2 : j2 = idx
      · subst hj2
        have heq : some (some (s.x, s.y)) = some (some q2) := hset.symm.trans hq2
        simp only [Option.some.injEq] at heq
        subst heq
        rw [← hb]
        intro p hp
        exact hsb s hsmem i2 p2 hp2 p ⟨placed_sub_space s b hfit p hp.2, hp.1⟩
      · rw [List.getElem?_set_ne (fun h => hj2 h.symm)] at hq2
        exact hbb i2 j2 p2 q2 hne hp2 hq2
  · -- the running dimensions bound every placed box
    intro i2 p2 hp2
    by_cases hi2 : i2 = idx
    · subst hi2
      have heq : some (some (s.x, s.y)) = some (some p2) := hset.symm.trans hp2
      simp only [Option.some.injEq] at heq
      subst heq
      rw [← hb]
      exact ⟨le_max_of_le_right (le_refl _), le_max_of_le_right (le_refl _)⟩
    · rw [List.getElem?_set_ne (fun h => hi2 h.symm)] at hp2
      obtain ⟨hx, hy⟩ := hext i2 p2 hp2
      exact ⟨le_max_of_le_left hx, le_max_of_le_left hy⟩

/-- One packing step preserves the invariant and places its box. -/
theorem placeBox_inv (boxes : List PBox) (startW : ℚ) (st : PackState) (idx : Nat)
    (hidx : idx < boxes.length)
    (hw : 0 ≤ (bAt boxes idx).w) (hh : 0 ≤ (bAt boxes idx).h)
    (hws : (bAt boxes idx).w ≤ startW)
    (hinv : PackInv boxes startW st) :
    PackInv boxes startW (placeBox st (bAt boxes idx) idx)
      ∧ placedAt (placeBox st (bAt boxes idx) idx) idx := by
  obtain ⟨sinf, hsinfm, hsinfh⟩ := hinv.2.2.1
  have hsinfw : sinf.w = startW := hinv.2.1 sinf hsinfm hsinfh
  have hfitinf : fitsB (bAt boxes idx) sinf = true := by
    unfold fitsB hFitsB
    rw [hsinfh, hsinfw]
    simp [hws]
  cases hff : findFit st.spaces (bAt boxes idx) with
  | none =>
    exfalso
    have := findFit_none hff sinf hsinfm
    rw [hfitinf] at this
    exact Bool.noConfusion this
  | some i =>
    obtain ⟨hilt, s, hsi, hfit⟩ := findFit_some hff
    rw [placeBox_eq st (bAt boxes idx) idx i s hff hsi]
    have hplaced : ∀ (sp2 : List Space) (w2 h2 : ℚ),
        placedAt ⟨sp2, st.pos.set idx (some (s.x, s.y)), w2, h2⟩ idx := by
      intro sp2 w2 h2
      refine ⟨(s.x, s.y), ?_⟩
      exact List.getElem?_set_eq (by rw [hinv.1]; exact hidx)
    by_cases h1 : (bAt boxes idx).w = s.w ∧ hEqB (bAt boxes idx).h s.h = true
    · rw [if_pos h1]
      refine ⟨step_inv boxes startW st _ idx i s [] _ rfl hidx hsi hfit hinv
        ?_ (by simp) (by simp) (by simp) ?_ (by simp), hplaced _ _ _⟩
      · rw [List.append_nil]
        exact removeSwap_perm st.spaces i hilt
      · intro hsh
        rw [hsh] at h1
        simp [hEqB] at h1
    · rw [if_neg h1]
      by_cases h2 : hEqB (bAt boxes idx).h s.h = true
      · rw [if_pos h2]
        refine ⟨step_inv boxes startW st _ idx i s
          [⟨s.x + (bAt boxes idx).w, s.y, s.w - (bAt boxes idx).w, s.h⟩] _
          rfl hidx hsi hfit hinv (set_perm_eraseIdx st.spaces i _ hilt)
          ?_ (by simp) ?_ ?_ ?_, hplaced _ _ _⟩
        · intro n hn
          rw [List.mem_singleton] at hn
          subst hn
          exact right2_sub_space s _ hw
        · intro n hn
          rw [List.mem_singleton] at hn
          subst hn
          exact right2_disj_placed s _
        · intro hsh
          rw [hsh] at h2
          simp [hEqB] at h2
        · intro n hn hnh
          rw [List.mem_singleton] at hn
          subst hn
          dsimp only at hnh
          rw [hnh] at h2
          simp [hEqB] at h2
      · rw [if_neg h2]
        by_cases h3 : (bAt boxes idx).w = s.w
        · rw [if_pos h3]
          refine ⟨step_inv boxes startW st _ idx i s
            [⟨s.x, s.y + (bAt boxes idx).h, s.w, hSubO s.h (bAt boxes idx).h⟩] _
            rfl hidx hsi hfit hinv (set_perm_eraseIdx st.spaces i _ hilt)
            ?_ (by simp) ?_ ?_ ?_, hplaced _ _ _⟩
          · intro n hn
            rw [List.mem_singleton] at hn
            subst hn
            exact bottom_sub_space s _ hh
          · intro n hn
            rw [List.mem_singleton] at hn
            subst hn
            exact bottom_disj_placed s _
          · intro hsh
            refine ⟨_, List.mem_singleton_self _, ?_⟩
            dsimp only
            rw [hsh]
            rfl
          · intro n hn hnh
            rw [List.mem_singleton] at hn
            subst hn
            dsimp only at hnh
            exact ⟨Option.map_eq_none'.mp hnh, rfl⟩
        · rw [if_neg h3]
          have hperm4 : List.Perm
              ((st.spaces.set i ⟨s.x, s.y + (bAt boxes idx).h, s.w, hSubO s.h (bAt boxes idx).h⟩)
                ++ [⟨s.x + (bAt boxes idx).w, s.y, s.w - (bAt boxes idx).w, some (bAt boxes idx).h⟩])
              (st.spaces.eraseIdx i ++
                [⟨s.x, s.y + (bAt boxes idx).h, s.w, hSubO s.h (bAt boxes idx).h⟩,
                 ⟨s.x + (bAt boxes idx).w, s.y, s.w - (bAt boxes idx).w, some (bAt boxes idx).h⟩]) := by
            have h := (List.perm_append_right_iff
              [(⟨s.x + (bAt boxes idx).w, s.y, s.w - (bAt boxes idx).w, some (bAt boxes idx).h⟩ : Space)]).mpr
              (set_perm_eraseIdx st.spaces i
                ⟨s.x, s.y + (bAt boxes idx).h, s.w, hSubO s.h (bAt boxes idx).h⟩ hilt)
            rw [List.append_assoc] at h
            exact h
          refine ⟨step_inv boxes startW st _ idx i s
            [⟨s.x, s.y + (bAt boxes idx).h, s.w, hSubO s.h (bAt boxes idx).h⟩,
             ⟨s.x + (bAt boxes idx).w, s.y, s.w - (bAt boxes idx).w, some (bAt boxes idx).h⟩] _
            rfl hidx hsi hfit hinv hperm4 ?_ ?_ ?_ ?_ ?_, hplaced _ _ _⟩
          · intro n hn
            rcases List.mem_cons.mp hn with rfl | hn2
            · exact bottom_sub_space s _ hh
            · rw [List.mem_singleton] at hn2
              subst hn2
              exact right4_sub_space s _ hfit hw
          · refine List.Pairwise.cons ?_ (by simp)
            intro n hn
            rw [List.mem_singleton] at hn
            subst hn
            exact bottom_disj_right4 s _
          · intro n hn
            rcases List.mem_cons.mp hn with rfl | hn2
            · exact bottom_disj_placed s _
            · rw [List.mem_singleton] at hn2
              subst hn2
              exact right4_disj_placed s _
          · intro hsh
            refine ⟨_, List.mem_cons_self _ _, ?_⟩
            dsimp only
            rw [hsh]
            rfl
          · intro n hn hnh
            rcases List.mem_cons.mp hn with rfl | hn2
            · dsimp only at hnh
              exact ⟨Option.map_eq_none'.mp hnh, rfl⟩
            · rw [List.mem_singleton] at hn2
              subst hn2
              dsimp only at hnh
              exact absurd hnh (by simp)

theorem place_keeps (st : PackState) (b : PBox) (idx j : Nat)
    (h : placedAt st j) : placedAt (placeBox st b idx) j := by
  cases hff : findFit st.spaces b with
  | none =>
    rw [placeBox_none idx hff]
    exact h
  | some i =>
    obtain ⟨hilt, s, hsi, hfit⟩ := findFit_some hff
    rw [placeBox_eq st b idx i s hff hsi]
    obtain ⟨p, hp⟩ := h
    by_cases hji : idx = j
    · subst hji
      refine ⟨(s.x, s.y), ?_⟩
      exact List.getElem?_set_eq (List.getElem?_eq_some.mp hp).1
    · refine ⟨p, ?_⟩
      show (st.pos.set idx (some (s.x, s.y)))[j]? = some (some p)
      rw [List.getElem?_set_ne hji]
      exact hp

theorem foldl_keeps (boxes : List PBox) (j : Nat) :
    ∀ (l : List Nat) (st : PackState), placedAt st j →
      placedAt (l.foldl (fun st idx => placeBox st (boxes.getD idx ⟨0, 0⟩) idx) st) j := by
  intro l
  induction l with
  | nil => intro st h; exact h
  | cons a rest ih =>
    intro st h
    rw [List.foldl_cons]
    exact ih _ (place_keeps st _ a j h)

/-- Running the packing loop over any list of in-range indices preserves the
invariant and places every listed box. -/
theorem packLoop_inv (boxes : List PBox) (startW : ℚ)
    (hbx : ∀ b ∈ boxes, 0 ≤ b.w ∧ 0 ≤ b.h ∧ b.w ≤ startW) :
    ∀ (l : List Nat) (st : PackState), (∀ idx ∈ l, idx < boxes.length) →
      PackInv boxes startW st →
      PackInv boxes startW
        (l.foldl (fun st idx => placeBox st (boxes.getD idx ⟨0, 0⟩) idx) st)
      ∧ ∀ idx ∈ l, placedAt
        (l.foldl (fun st idx => placeBox st (boxes.getD idx ⟨0, 0⟩) idx) st) idx := by
  intro l
  induction l with
  | nil =>
    intro st _ hinv
    exact ⟨hinv, by simp⟩
  | cons a rest ih =>
    intro st hl hinv
    have ha : a < boxes.length := hl a (List.mem_cons_self a rest)
    have hmemb : bAt boxes a ∈ boxes := by
      unfold bAt
      rw [List.getD_eq_getElem boxes _ ha]
      exact List.getElem_mem ha
    have hstep := placeBox_inv boxes startW st a ha (hbx _ hmemb).1 (hbx _ hmemb).2.1
      (hbx _ hmemb).2.2 hinv
    rw [List.foldl_cons]
    have hrest := ih (placeBox st (boxes.getD a ⟨0, 0⟩) a)
      (fun idx hidx => hl idx (List.mem_cons_of_mem a hidx)) hstep.1
    refine ⟨hrest.1, ?_⟩
    intro idx hidx
    rcases List.mem_cons.mp hidx with rfl | hidx2
    · exact foldl_keeps boxes idx rest _ hstep.2
    · exact hrest.2 idx hidx2

theorem foldl_max_init (l : List PBox) : ∀ m : ℚ, m ≤ l.foldl (fun a b => max a b.w) m := by
  induction l with
  | nil => intro m; exact le_refl m
  | cons b rest ih =>
    intro m
    rw [List.foldl_cons]
    exact le_trans (le_max_left m b.w) (ih _)

theorem foldl_max_mem (l : List PBox) : ∀ (m : ℚ) (b : PBox), b ∈ l →
    b.w ≤ l.foldl (fun a c => max a c.w) m := by
  induction l with
  | nil => intro m b hb; simp at hb
  | cons c rest ih =>
    intro m b hb
    rw [List.foldl_cons]
    rcases List.mem_cons.mp hb with rfl | hb2
    · exact le_trans (le_max_right m b.w) (foldl_max_init rest _)
    · exact ih _ b hb2

theorem initialInv (boxes : List PBox) (startW : ℚ) :
    PackInv boxes startW
      ⟨[⟨0, 0, startW, none⟩], List.replicate boxes.length none, 0, 0⟩ := by
  have hnone : ∀ (i : Nat) (p : ℚ × ℚ),
      (List.replicate boxes.length (none : Option (ℚ × ℚ)))[i]? = some (some p) → False := by
    intro i p hp
    by_cases hi : i < boxes.length
    · rw [List.getElem?_replicate_of_lt hi] at hp
      simp at hp
    · rw [List.getElem?_eq_none_iff.mpr (by simp; omega)] at hp
      simp at hp
  refine ⟨by simp, ?_, ⟨⟨0, 0, startW, none⟩, List.mem_singleton_self _, rfl⟩, by simp, ?_, ?_, ?_⟩
  · intro s hs _
    rw [List.mem_singleton] at hs
    subst hs
    rfl
  · intro s _ i p hp
    exact absurd hp (fun h => hnone i p h)
  · intro i j p q _ hp _
    exact absurd hp (fun h => hnone i p h)
  · intro i p hp
    exact absurd hp (fun h => hnone i p h)

theorem fitAux (boxes : List PBox) (startW : ℚ)
    (hd : ∀ b ∈ boxes, 0 ≤ b.w ∧ 0 ≤ b.h ∧ b.w ≤ startW) :
    PackInv boxes startW ((packOrder boxes).foldl
      (fun st idx => placeBox st (boxes.getD idx ⟨0, 0⟩) idx)
      ⟨[⟨0, 0, startW, none⟩], List.replicate boxes.length none, 0, 0⟩)
    ∧ ∀ i, i < boxes.length → placedAt ((packOrder boxes).foldl
      (fun st idx => placeBox st (boxes.getD idx ⟨0, 0⟩) idx)
      ⟨[⟨0, 0, startW, none⟩], List.replicate boxes.length none, 0, 0⟩) i := by
  have horder : ∀ idx ∈ packOrder boxes, idx < boxes.length := by
    intro idx hidx
    unfold packOrder at hidx
    exact List.mem_range.mp ((List.mergeSort_perm _ _).mem_iff.mp hidx)
  have h := packLoop_inv boxes startW hd (packOrder boxes) _ horder (initialInv boxes startW)
  refine ⟨h.1, ?_⟩
  intro i hi
  apply h.2
  unfold packOrder
  exact (List.mergeSort_perm _ _).mem_iff.mpr (List.mem_range.mpr hi)

/-- **C3.** For every input list of rectangles with non-negative (finite)
widths and heights and every `minWidth`, `fitImages` (src/imageFit.js lines
103-372) assigns a placement to every input rectangle — the output `pos` list
is parallel to the input and every entry is filled — no two placed rectangles
overlap (their half-open regions `[x, x+w) x [y, y+h)` are disjoint, which for
rectangles of positive area is exactly non-overlap), and the returned
container width and height are at least the x-extent `x + w` and y-extent
`y + h` of every placed rectangle. -/
theorem C3_fitImages (imgList : List PBox) (minWidth : ℚ)
    (hdims : ∀ b ∈ imgList, 0 ≤ b.w ∧ 0 ≤ b.h)
    (R : PackResult) (hR : R = fitImages imgList minWidth) :
    R.pos.length = imgList.length
    ∧ (∀ i, i < imgList.length → ∃ p, R.pos[i]? = some (some p))
    ∧ (∀ i j p q, i ≠ j → R.pos[i]? = some (some p) → R.pos[j]? = some (some q) →
        boxBoxDisj p.1 p.2 (bAt imgList i).w (bAt imgList i).h
          q.1 q.2 (bAt imgList j).w (bAt imgList j).h)
    ∧ (∀ i p, R.pos[i]? = some (some p) →
        p.1 + (bAt imgList i).w ≤ R.containerWidth
        ∧ p.2 + (bAt imgList i).h ≤ R.containerHeight) := by
  subst hR
  have hrw : fitImages imgList minWidth =
      ⟨((packOrder imgList).foldl
          (fun st idx => placeBox st (imgList.getD idx ⟨0, 0⟩) idx)
          ⟨[⟨0, 0, max (max ((jsCeilSqrt ((imgList.foldl (fun a b => a + b.w * b.h) 0) / (9 / 10)) : ℚ))
              (imgList.foldl (fun m b => max m b.w) 0)) minWidth, none⟩],
            List.replicate imgList.length none, 0, 0⟩).width,
        ((packOrder imgList).foldl
          (fun st idx => placeBox st (imgList.getD idx ⟨0, 0⟩) idx)
          ⟨[⟨0, 0, max (max ((jsCeilSqrt ((imgList.foldl (fun a b => a + b.w * b.h) 0) / (9 / 10)) : ℚ))
              (imgList.foldl (fun m b => max m b.w) 0)) minWidth, none⟩],
            List.replicate imgList.length none, 0, 0⟩).height,
        ((packOrder imgList).foldl
          (fun st idx => placeBox st (imgList.getD idx ⟨0, 0⟩) idx)
          ⟨[⟨0, 0, max (max ((jsCeilSqrt ((imgList.foldl (fun a b => a + b.w * b.h) 0) / (9 / 10)) : ℚ))
              (imgList.foldl (fun m b => max m b.w) 0)) minWidth, none⟩],
            List.replicate imgList.length none, 0, 0⟩).pos⟩ := rfl
  rw [hrw]
  have hws : ∀ b ∈ imgList, 0 ≤ b.w ∧ 0 ≤ b.h ∧
      b.w ≤ max (max ((jsCeilSqrt ((imgList.foldl (fun a b => a + b.w * b.h) 0) / (9 / 10)) : ℚ))
        (imgList.foldl (fun m b => max m b.w) 0)) minWidth := by
    intro b hb
    refine ⟨(hdims b hb).1, (hdims b hb).2, ?_⟩
    exact le_max_of_le_left (le_max_of_le_right (foldl_max_mem imgList 0 b hb))
  obtain ⟨⟨hlen, _, _, _, _, hbb, hext⟩, hplace⟩ := fitAux imgList _ hws
  exact ⟨hlen, fun i hi => hplace i hi, hbb, hext⟩


/-- Concrete packing input for the C3 witness: a 2x1 and a 1x1 rectangle. -/
def c3Input : List PBox := [⟨2, 1⟩, ⟨1, 1⟩]

theorem C3_fitImages_witness :
    (∀ b ∈ c3Input, 0 ≤ b.w ∧ 0 ≤ b.h) ∧
    ((fitImages c3Input 0).pos.length = c3Input.length
     ∧ (∀ i, i < c3Input.length → ∃ p, (fitImages c3Input 0).pos[i]? = some (some p))
     ∧ (∀ i j p q, i ≠ j → (fitImages c3Input 0).pos[i]? = some (some p) →
         (fitImages c3Input 0).pos[j]? = some (some q) →
         boxBoxDisj p.1 p.2 (bAt c3Input i).w (bAt c3Input i).h
           q.1 q.2 (bAt c3Input j).w (bAt c3Input j).h)
     ∧ (∀ i p, (fitImages c3Input 0).pos[i]? = some (some p) →
         p.1 + (bAt c3Input i).w ≤ (fitImages c3Input 0).containerWidth
         ∧ p.2 + (bAt c3Input i).h ≤ (fitImages c3Input 0).containerHeight)) :=
  ⟨by decide, C3_fitImages c3Input 0 (by decide) (fitImages c3Input 0) rfl⟩

end TMCM
